import Mathlib

/-!
Shallow embedding of `lintorch/core/editable_module.py`.

Python objects are modelled as nodes in a heap addressed by `Nat`
(the address plays the role of `id(obj)`).  A node is either a tensor
(carrying its dtype), an object with an attribute dictionary
(`__dict__`), an iterable (a list), or an atom exposing neither
attribute access nor iteration.  Tensors expose an (empty) attribute
dictionary, as `torch.Tensor` instances do.
-/

namespace EditableModule

/-- Torch dtypes relevant to `torch_float_type`:
`[torch.float32, torch.float, torch.float64, torch.float16]`
(`torch.float` is an alias of `torch.float32`). -/
inductive Dtype where
  | float32 | float64 | float16 | int32 | int64 | boolT
deriving DecidableEq, Repr

/-- Membership in `torch_float_type`. -/
def Dtype.isFloat : Dtype → Bool
  | .float32 => true
  | .float64 => true
  | .float16 => true
  | _ => false

/-- A Python value: a tensor, an object with `__dict__`, an iterable,
or an atom with neither. Children are stored as heap addresses. -/
inductive Node where
  | tensor (dt : Dtype)
  | dict (fields : List (String × Nat))
  | iter (elems : List Nat)
  | atom
deriving DecidableEq, Repr

/-- The heap: every address holds a node (unused addresses hold atoms). -/
abbrev Heap := Nat → Node

/-- A slot key: an attribute name (for `__dict__` containers) or a
position (for iterables, produced by `enumerate`). -/
inductive SKey where
  | attr (s : String)
  | idx (n : Nat)
deriving DecidableEq, Repr

/-- `name_format.format(prefix=prefix, key=key)`:
`"{prefix}.{key}"` for attribute containers and `"{prefix}[{key}]"`
for iterables. -/
def fmtName (pfx : String) : SKey → String
  | .attr s => pfx ++ "." ++ s
  | .idx n => pfx ++ "[" ++ toString n ++ "]"

/-- The `(key, elmt)` pairs yielded by `generator` in `_traverse_obj`:
`obj.__dict__.items()` when the object has `__dict__` (tensors have an
empty one), `enumerate(obj)` when it is iterable, and `none` when it is
an atom (which makes `_traverse_obj` raise `RuntimeError`). -/
def Node.entries : Node → Option (List (SKey × Nat))
  | .tensor _ => some []
  | .dict fs => some (fs.map (fun p => (SKey.attr p.1, p.2)))
  | .iter es => some ((es.enum).map (fun p => (SKey.idx p.1, p.2)))
  | .atom => none

/-- `crit` used by `_get_tensors` / `_set_tensors`:
`isinstance(elmt, torch.Tensor) and elmt.dtype in torch_float_type`. -/
def critFloatTensor : Node → Bool
  | .tensor dt => dt.isFloat
  | _ => false

/-- Errors raised by the traversal:
`RecursionError("Maximum number of recursion reached")`,
`RuntimeError("The object must be iterable or keyable")`, and the
`IndexError` of `all_params.pop(0)` on an empty list in `_set_tensors`. -/
inductive TravErr where
  | recursionDepth | notKeyable | popEmpty
deriving DecidableEq, Repr

/-- Mutable state threaded through a traversal: the heap (mutated by
`_set_tensors`' action), the `exception_ids` list of visited
addresses, and an action-specific accumulator. -/
structure TState (σ : Type) where
  heap : Heap
  visited : List Nat
  acc : σ

/-- An `action(elmt, name, objdict, key)` callback: receives the state,
the element's address, its synthetic name, the owning container's
address and the slot key; returns the new state and possibly an
exception. -/
abbrev TAction (σ : Type) :=
  TState σ → Nat → String → Nat → SKey → TState σ × Option TravErr

/-- The `for key,elmt in generator` loop body of `_traverse_obj`:
skip already-visited ids, otherwise record the id; apply the action to
recognized tensors; recurse (via `recur`) into values exposing
`__dict__` or `__iter__`; silently skip other values. -/
def traverseList (act : TAction σ)
    (recur : Nat → String → TState σ → TState σ × Option TravErr)
    (owner : Nat) (pfx : String) :
    List (SKey × Nat) → TState σ → TState σ × Option TravErr
  | [], st => (st, none)
  | (k, ca) :: rest, st =>
    if st.visited.contains ca then
      traverseList act recur owner pfx rest st
    else
      let st1 : TState σ := { st with visited := st.visited ++ [ca] }
      let name := fmtName pfx k
      if critFloatTensor (st1.heap ca) then
        match act st1 ca name owner k with
        | (st2, some e) => (st2, some e)
        | (st2, none) => traverseList act recur owner pfx rest st2
      else if ((st1.heap ca).entries).isSome then
        match recur ca name st1 with
        | (st2, some e) => (st2, some e)
        | (st2, none) => traverseList act recur owner pfx rest st2
      else
        traverseList act recur owner pfx rest st1

/-- One invocation of `_traverse_obj` on the object at `addr`: pick the
generator from `__dict__` or `__iter__` (error for atoms) and run the
loop, recursing through `recur`. -/
def traverseStep (act : TAction σ)
    (recur : Nat → String → TState σ → TState σ × Option TravErr)
    (addr : Nat) (pfx : String) (st : TState σ) :
    TState σ × Option TravErr :=
  match (st.heap addr).entries with
  | none => (st, some .notKeyable)
  | some es => traverseList act recur addr pfx es st

/-- `_traverse_obj(obj, prefix, action, crit, max_depth, exception_ids)`.
The `fuel` argument is `max_depth`; the source recurses with
`max_depth-1` when `max_depth > 0` and raises `RecursionError` when a
traversable child is found at `max_depth == 0`. -/
def traverseObj (act : TAction σ) :
    Nat → Nat → String → TState σ → TState σ × Option TravErr
  | 0, addr, pfx, st =>
    traverseStep act (fun _ _ s => (s, some .recursionDepth)) addr pfx st
  | fuel+1, addr, pfx, st =>
    traverseStep act (fun a p s => traverseObj act fuel a p s) addr pfx st

/-- The action of `_get_tensors`: `res.append(elmt); names.append(name)`. -/
def getAction : TAction (List Nat × List String) :=
  fun st ca name _ _ =>
    ({ st with acc := (st.acc.1 ++ [ca], st.acc.2 ++ [name]) }, none)

/-- `_get_tensors(obj, prefix="self", max_depth=20)`: collect all
float tensors reachable from `root` together with their names. -/
def getTensors (h : Heap) (root : Nat) (maxDepth : Nat := 20) :
    (List Nat × List String) × Option TravErr :=
  let r := traverseObj getAction maxDepth root "self" ⟨h, [], ([], [])⟩
  (r.1.acc, r.2)

/-- `objdict[key] = value`: write a new child address into a container
slot. -/
def setSlot (n : Node) (k : SKey) (newAddr : Nat) : Node :=
  match n, k with
  | .dict fs, .attr s => .dict (fs.map (fun p => if p.1 = s then (p.1, newAddr) else p))
  | .iter es, .idx i => .iter (es.set i newAddr)
  | n, _ => n

/-- The action of `_set_tensors`: `objdict[key] = all_params.pop(0)`
(an empty `all_params` raises `IndexError`). -/
def setAction : TAction (List Nat) :=
  fun st _ _ owner k =>
    match st.acc with
    | [] => (st, some .popEmpty)
    | p :: ps =>
      ({ heap := fun a => if a = owner then setSlot (st.heap owner) k p else st.heap a,
         visited := st.visited, acc := ps }, none)

/-- `_set_tensors(obj, all_params, max_depth=20)`: install the supplied
tensor addresses into the matched slots; returns the final heap and the
unconsumed tail of `all_params`. -/
def setTensors (h : Heap) (root : Nat) (allParams : List Nat)
    (maxDepth : Nat := 20) : (Heap × List Nat) × Option TravErr :=
  let r := traverseObj setAction maxDepth root "self" ⟨h, [], allParams⟩
  ((r.1.heap, r.1.acc), r.2)

/-! ### The deduplication layer

`EditableModule._get_unique_params_idxs`, `getuniqueparams`,
`setuniqueparams` and `useparams`.  Tensors are represented by their
addresses (`id(param)` in the source compares exactly these). -/

/-- `idx_map[jfound].append(i)`. -/
def appendAt : List (List Nat) → Nat → Nat → List (List Nat)
  | [], _, _ => []
  | g :: gs, 0, i => (g ++ [i]) :: gs
  | g :: gs, j+1, i => g :: appendAt gs j i

/-- `ids.index(id_param)`: position of the first occurrence, raising
`ValueError` (modelled `none`) when absent. -/
def listIndex (x : Nat) : List Nat → Option Nat
  | [] => none
  | y :: ys => if y = x then some 0 else (listIndex x ys).map (· + 1)

/-- The scanning loop of `_get_unique_params_idxs` over `allparams`:
state `(ids, idxs, idx_map)`, position counter `i`, remaining ids. -/
def uniqueScanAux (ids idxs : List Nat) (idxMap : List (List Nat)) :
    Nat → List Nat → List Nat × List Nat × List (List Nat)
  | _, [] => (ids, idxs, idxMap)
  | i, p :: rest =>
    match listIndex p ids with
    | some j => uniqueScanAux ids idxs (appendAt idxMap j i) (i+1) rest
    | none =>
      uniqueScanAux (ids ++ [p]) (idxs ++ [i]) (idxMap ++ [[i]]) (i+1) rest

/-- The pure core of `_get_unique_params_idxs`: from the full parameter
id list, the `(ids, idxs, idx_map)` triple built by the loop. -/
def uniqueScan (allparams : List Nat) : List Nat × List Nat × List (List Nat) :=
  uniqueScanAux [] [] [] 0 allparams

/-- The three per-instance cache dictionaries plus the
`hasattr(self, "_unique_params_idxs")` flag (`false` before the first
call ever creates them). -/
structure EMCache where
  hasCache : Bool
  uIdxs : List (String × List Nat)
  uMaps : List (String × List (List Nat))
  nNums : List (String × Nat)

/-- A module whose caches were never touched. -/
def EMCache.empty : EMCache := ⟨false, [], [], []⟩

/-- `_get_unique_params_idxs(methodname, allparams)`: create the cache
dictionaries if absent, return the cached index list on a hit, else
fetch `allparams` (calling `getparams` when the argument is `None`),
scan it, and store length, indices and groups.  The returned `Bool`
records whether `self.getparams` was invoked. -/
def getUniqueParamsIdxs (getparamsFn : Unit → List Nat) (c : EMCache)
    (name : String) (allparams? : Option (List Nat)) :
    List Nat × EMCache × Bool :=
  let c := if c.hasCache then c else ⟨true, [], [], []⟩
  match c.uIdxs.lookup name with
  | some idxs => (idxs, c, false)
  | none =>
    let ap := match allparams? with
      | some ap => ap
      | none => getparamsFn ()
    let called := match allparams? with
      | some _ => false
      | none => true
    let r := uniqueScan ap
    (r.2.1,
     { hasCache := true,
       uIdxs := (name, r.2.1) :: c.uIdxs,
       uMaps := (name, r.2.2) :: c.uMaps,
       nNums := (name, ap.length) :: c.nNums }, called)

/-- An `EditableModule` instance: the underlying object state plus the
unique-parameter caches. -/
structure EMSt (α : Type) where
  obj : α
  cache : EMCache

/-- `getuniqueparams(methodname)`: fetch the full list via `getparams`,
compute (or recall) the unique indices, and select
`[allparams[i] for i in idxs]` (an out-of-range index would raise
`IndexError`, modelled by `none`). -/
def getuniqueparams (gp : α → String → List Nat) (st : EMSt α)
    (name : String) : Option (List Nat × EMSt α) :=
  let allparams := gp st.obj name
  let r := getUniqueParamsIdxs (fun _ => allparams) st.cache name (some allparams)
  match r.1.mapM (fun i => allparams[i]?) with
  | none => none
  | some ups => some (ups, { st with cache := r.2.1 })

/-- `allparams[i] = p` for each `i` in a group (`IndexError` when `i`
is out of range, which Python's list assignment would raise). -/
def setGroup : List Nat → Nat → List (Option Nat) → Option (List (Option Nat))
  | [], _, acc => some acc
  | i :: is, p, acc =>
    if i < acc.length then setGroup is p (acc.set i (some p))
    else none

/-- The reconstruction loop of `setuniqueparams`:
`for j in range(len(uniqueparams)): jmap = maps[j]; ...`
(`maps[j]` raises `IndexError` when `uniqueparams` is longer than the
cached group list; unassigned positions keep their initial `None`). -/
def reconstructLoop : List (List Nat) → List Nat → List (Option Nat) →
    Option (List (Option Nat))
  | _, [], acc => some acc
  | [], _ :: _, _ => none
  | m :: ms, p :: ps, acc =>
    match setGroup m p acc with
    | none => none
    | some acc1 => reconstructLoop ms ps acc1

/-- The full-list argument `setuniqueparams` passes to `setparams`:
`allparams = [None]*nparams` then every unique value broadcast to its
group positions.  `none` models the `KeyError` of a missing cache entry
or an `IndexError` inside the loop. -/
def reconstructFull (c : EMCache) (name : String) (ups : List Nat) :
    Option (List (Option Nat)) :=
  match c.nNums.lookup name, c.uMaps.lookup name with
  | some nparams, some maps =>
    reconstructLoop maps ups (List.replicate nparams none)
  | _, _ => none

/-- `setuniqueparams(methodname, *uniqueparams)`: reconstruct the full
list from the cached maps and delegate to `setparams` (whose count
return value is not used by the callers modelled here). -/
def setuniqueparams (sp : α → String → List (Option Nat) → α)
    (st : EMSt α) (name : String) (ups : List Nat) : Option (EMSt α) :=
  match reconstructFull st.cache name ups with
  | none => none
  | some full => some { st with obj := sp st.obj name full }

/-- `useparams(methodname, *params)` as a context manager around a
caller `body` (modelled as a transformation of the object state that
may additionally raise).  Faithful control flow of the
`try/except/finally`:
* an exception in `getuniqueparams` leaves `_orig_params_` unbound, so
  the `finally` block raises `NameError` out of the scope (`none`);
* an exception in the inner `setuniqueparams` or in the caller's code
  is caught by `except Exception` and only printed;
* the `finally` block always reinstalls the snapshot; an exception
  there propagates (`none`). -/
def useparams (gp : α → String → List Nat)
    (sp : α → String → List (Option Nat) → α)
    (st : EMSt α) (name : String) (params : List Nat)
    (body : α → α × Option Unit) : Option (EMSt α) :=
  match getuniqueparams gp st name with
  | none => none
  | some (origParams, st1) =>
    let stMid : EMSt α :=
      match setuniqueparams sp st1 name params with
      | none => st1
      | some st2 =>
        let r := body st2.obj
        { st2 with obj := r.1 }
    setuniqueparams sp stMid name origParams

/-! ### The gradient-probing verifier check

`EditableModule.__assert_get_correct_params`, lines 184-217: the part
after the non-float check, acting on the probed operating parameters
(`oper_params`: tensors that received a non-`None` gradient), the
declared parameters (`user_params = getparams(methodname)`) and the
reachable tensors (`all_params`/`all_names` from `_get_tensors`). -/

/-- A value appearing in a `getparams` result: its address, whether it
is a `torch.Tensor` at all, and its dtype. -/
structure PVal where
  addr : Nat
  isTensor : Bool
  dtype : Dtype
deriving DecidableEq, Repr

/-- Outcome of `__assert_get_correct_params`: the possible
`GetSetParamsError`s. -/
inductive CheckErr where
  /-- "Non-floating point tensor param is detected at position #i". -/
  | nonFloat (i : Nat)
  /-- "The parameter #i in getparams is not a float tensor member of
  the class". -/
  | notMember (i : Nat)
  /-- "getparams ... has excess parameters: ...". -/
  | excess (names : List String)
deriving DecidableEq, Repr

/-- The first loop: raise `nonFloat` at the first declared parameter
that is not a floating-point tensor. -/
def checkFloatLoop : Nat → List PVal → Option CheckErr
  | _, [] => none
  | i, p :: ps =>
    if p.isTensor && p.dtype.isFloat then checkFloatLoop (i+1) ps
    else some (.nonFloat i)

/-- The missing-parameter loop: names of operating parameters whose id
does not occur among the declared ids (these only produce a
`warnings.warn`). -/
def missingNames : List (String × Nat) → List Nat → List String
  | [], _ => []
  | (nm, pid) :: rest, userIds =>
    if userIds.contains pid then missingNames rest userIds
    else nm :: missingNames rest userIds

/-- `_get_tensor_name`: first reachable-tensor name with a matching id. -/
def getTensorName : List (Nat × String) → Nat → Option String
  | [], _ => none
  | (aid, anm) :: rest, pid =>
    if aid = pid then some anm else getTensorName rest pid

/-- The excess-parameter loop: declared parameters whose id received no
gradient are looked up among the reachable tensors; an unknown id
raises `notMember` immediately, known ids accumulate into
`excess_names`. -/
def excessLoop (allTensors : List (Nat × String)) (operIds : List Nat) :
    Nat → List PVal → Except CheckErr (List String)
  | _, [] => .ok []
  | i, p :: ps =>
    if operIds.contains p.addr then excessLoop allTensors operIds (i+1) ps
    else
      match getTensorName allTensors p.addr with
      | none => .error (.notMember i)
      | some nm =>
        match excessLoop allTensors operIds (i+1) ps with
        | .error e => .error e
        | .ok nms => .ok (nm :: nms)

/-- Lines 176-217 of `__assert_get_correct_params`: the float check,
the missing-parameter warning, and the excess-parameter error.  Returns
the warned missing names together with the fatal error, if any. -/
def assertGetCorrectParams (operParams : List (String × Nat))
    (userParams : List PVal) (allTensors : List (Nat × String)) :
    List String × Option CheckErr :=
  match checkFloatLoop 0 userParams with
  | some e => ([], some e)
  | none =>
    let userIds := userParams.map (fun p => p.addr)
    let operIds := operParams.map (fun p => p.2)
    let missing := missingNames operParams userIds
    match excessLoop allTensors operIds 0 userParams with
    | .error e => (missing, some e)
    | .ok excessNms =>
      (missing, if excessNms.isEmpty then none else some (.excess excessNms))

/-! ### Concrete heaps used in counterexamples and witnesses -/

/-- A heap whose root object holds a single attribute referencing an
atom (a value that is not a tensor and exposes neither `__dict__` nor
`__iter__`). -/
def atomChildHeap : Heap := fun a =>
  if a = 0 then .dict [("x", 1)] else .atom

/-- Depth of non-tensor nesting below a value (the root itself counts
as depth 0): the maximum, over children the traversal would recurse
into, of one plus the child's nesting depth.  The first argument is
evaluation fuel. -/
def nestingDepth (h : Heap) : Nat → Nat → Nat
  | 0, _ => 0
  | fuel+1, a =>
    match (h a).entries with
    | none => 0
    | some es => es.foldl (fun m p =>
        if critFloatTensor (h p.2) = false && ((h p.2).entries).isSome then
          max m (1 + nestingDepth h fuel p.2)
        else m) 0

/-- A chain of dictionaries `0 → 1 → ⋯ → 21` (nesting depth 21) whose
deepest node is additionally aliased near the root: the root holds
`p = node 20` and `q = node 1`. -/
def deepAliasHeap : Heap := fun a =>
  if a = 0 then .dict [("p", 20), ("q", 1)]
  else if a ≤ 20 then .dict [("x", a+1)]
  else if a = 21 then .dict []
  else .atom

/-- The same chain without the shallow alias. -/
def deepChainHeap : Heap := fun a =>
  if a = 0 then .dict [("q", 1)]
  else if a ≤ 20 then .dict [("x", a+1)]
  else if a = 21 then .dict []
  else .atom

/-- An unboundedly deep graph: every even address is an object with a
float tensor attribute `t` (at the next odd address) and a sub-object
`x` (at the next even address). -/
def infChainHeap : Heap := fun a =>
  if a % 2 = 0 then .dict [("t", a+1), ("x", a+2)] else .tensor .float32

/-- The tensors of `infChainHeap` at nesting depths `k, …, k+f`. -/
def chainTensors : Nat → Nat → List Nat
  | k, 0 => [2*k+1]
  | k, f+1 => (2*k+1) :: chainTensors (k+1) f

/-- A root object whose attributes `x` and `y` alias the same tensor
`t`; `p` is a spare tensor used as a replacement. -/
def aliasPairHeap (rt t p : Nat) (dt dtp : Dtype) : Heap := fun a =>
  if a = rt then .dict [("x", t), ("y", t)]
  else if a = t then .tensor dt
  else if a = p then .tensor dtp
  else .atom

/-- Two mutually-referencing objects: `A` holds `b = B` and a tensor
`ta`; `B` holds `a = A` and a tensor `tb`. -/
def cycleHeap (aA aB t1 t2 : Nat) (d1 d2 : Dtype) : Heap := fun a =>
  if a = aA then .dict [("b", aB), ("ta", t1)]
  else if a = aB then .dict [("a", aA), ("tb", t2)]
  else if a = t1 then .tensor d1
  else if a = t2 then .tensor d2
  else .atom

/-- The invariant maintained by `_get_tensors`' action: collected
tensors are pairwise distinct and all recorded in `exception_ids`. -/
def GetInv (st : TState (List Nat × List String)) : Prop :=
  st.acc.1.Nodup ∧ ∀ a ∈ st.acc.1, a ∈ st.visited

/-- Invariant of the `_get_unique_params_idxs` scanning loop after
processing the first `i` positions of `ap`: lengths agree, the groups
partition `range i`, every group member holds the group's id, and every
unique index belongs to its own group. -/
structure ScanInv (ap : List Nat) (i : Nat) (ids idxs : List Nat)
    (gmap : List (List Nat)) : Prop where
  len1 : ids.length = idxs.length
  len2 : idxs.length = gmap.length
  perm : gmap.flatten.Perm (List.range i)
  bound : ∀ g ∈ gmap, ∀ x ∈ g, x < i
  value : ∀ (j : Nat) (g : List Nat), gmap[j]? = some g → ∀ x ∈ g, ap[x]? = ids[j]?
  idxmem : ∀ (j k : Nat), idxs[j]? = some k → ∃ g, gmap[j]? = some g ∧ k ∈ g

/-! ### Alias-free object trees for the collect/install round-trip -/

mutual
/-- An acyclic, alias-free object graph; every node records its heap
address.  Dictionaries carry attribute keys; iterables' keys are
positional. -/
inductive OTree where
  | tens (a : Nat) (dt : Dtype)
  | odict (a : Nat) (kids : OKids)
  | oiter (a : Nat) (kids : OKids)
  | oatom (a : Nat)
/-- The ordered children of a container node. -/
inductive OKids where
  | nil
  | cons (k : String) (t : OTree) (rest : OKids)
end

def OTree.addr : OTree → Nat
  | .tens a _ => a
  | .odict a _ => a
  | .oiter a _ => a
  | .oatom a => a

/-- Number of children. -/
def OKids.size : OKids → Nat
  | .nil => 0
  | .cons _ _ r => 1 + r.size

/-- Append two child lists. -/
def appendK : OKids → OKids → OKids
  | .nil, b => b
  | .cons k t r, b => .cons k t (appendK r b)

/-- The `__dict__` field list of a dictionary node. -/
def dictFields : OKids → List (String × Nat)
  | .nil => []
  | .cons k t r => (k, t.addr) :: dictFields r

/-- The attribute keys of a dictionary node. -/
def dictKeys : OKids → List String
  | .nil => []
  | .cons k _ r => k :: dictKeys r

/-- The element addresses of an iterable node. -/
def kidAddrs : OKids → List Nat
  | .nil => []
  | .cons _ t r => t.addr :: kidAddrs r

/-- The heap node a container describes. -/
def mkNode (isDict : Bool) (kids : OKids) : Node :=
  if isDict then .dict (dictFields kids) else .iter (kidAddrs kids)

/-- The `(key, elmt)` entries the traversal iterates for a container,
with `i` the position of the first child (iterables enumerate from it). -/
def kidEntries (isDict : Bool) : Nat → OKids → List (SKey × Nat)
  | _, .nil => []
  | i, .cons k t r =>
    (if isDict then SKey.attr k else SKey.idx i, t.addr) :: kidEntries isDict (i+1) r

mutual
/-- The tree is laid out in the heap exactly as described. -/
def realizes (h : Heap) : OTree → Bool
  | .tens a dt => h a == .tensor dt
  | .odict a kids => (h a == .dict (dictFields kids)) && realizesK h kids
  | .oiter a kids => (h a == .iter (kidAddrs kids)) && realizesK h kids
  | .oatom a => h a == .atom
def realizesK (h : Heap) : OKids → Bool
  | .nil => true
  | .cons _ t r => realizes h t && realizesK h r
end

mutual
/-- Fuel needed to traverse into a node. -/
def height : OTree → Nat
  | .tens _ _ => 0
  | .odict _ kids => heightK kids
  | .oiter _ kids => heightK kids
  | .oatom _ => 0
def heightK : OKids → Nat
  | .nil => 0
  | .cons _ t r => max (1 + height t) (heightK r)
end

mutual
/-- The addresses appended to `exception_ids` while traversing into a
node (each child, then recursively its own visit order). -/
def visitOrder : OTree → List Nat
  | .tens _ _ => []
  | .odict _ kids => visitOrderK kids
  | .oiter _ kids => visitOrderK kids
  | .oatom _ => []
def visitOrderK : OKids → List Nat
  | .nil => []
  | .cons _ t r => (t.addr :: visitOrder t) ++ visitOrderK r
end

mutual
/-- The float tensors contributed by a value occurring as a child, in
traversal order. -/
def kidTens : OTree → List Nat
  | .tens a dt => if dt.isFloat then [a] else []
  | .odict _ kids => tensK kids
  | .oiter _ kids => tensK kids
  | .oatom _ => []
def tensK : OKids → List Nat
  | .nil => []
  | .cons _ t r => kidTens t ++ tensK r
end

mutual
/-- Container addresses of a tree (the heap slots `_set_tensors`
mutates). -/
def contAddrs : OTree → List Nat
  | .tens _ _ => []
  | .odict a kids => a :: contAddrsK kids
  | .oiter a kids => a :: contAddrsK kids
  | .oatom _ => []
def contAddrsK : OKids → List Nat
  | .nil => []
  | .cons _ t r => contAddrs t ++ contAddrsK r
end

mutual
/-- The tree after installing the parameters (address, dtype pairs)
into the float-tensor leaves in traversal order, together with the
unconsumed parameters. -/
def substT : OTree → List (Nat × Dtype) → OTree × List (Nat × Dtype)
  | .tens a dt, ps =>
    if dt.isFloat then
      match ps with
      | [] => (.tens a dt, [])
      | q :: qs => (.tens q.1 q.2, qs)
    else (.tens a dt, ps)
  | .odict a kids, ps => ((.odict a (substK kids ps).1), (substK kids ps).2)
  | .oiter a kids, ps => ((.oiter a (substK kids ps).1), (substK kids ps).2)
  | .oatom a, ps => (.oatom a, ps)
def substK : OKids → List (Nat × Dtype) → OKids × List (Nat × Dtype)
  | .nil, ps => (.nil, ps)
  | .cons k t r, ps =>
    (.cons k (substT t ps).1 (substK r (substT t ps).2).1,
     (substK r (substT t ps).2).2)
end

/-- Whether the traversal recurses into this value when it occurs as a
child: objects with `__dict__` or `__iter__` that are not recognized
float tensors. -/
def recursable : OTree → Bool
  | .tens _ dt => !dt.isFloat
  | .odict _ _ => true
  | .oiter _ _ => true
  | .oatom _ => false

/-- Whether the value is a container (has children). -/
def isContainer : OTree → Bool
  | .odict _ _ => true
  | .oiter _ _ => true
  | _ => false

/-- Duplicate-freedom of a key list, by the loop the runtime would
use. -/
def strNodup : List String → Bool
  | [] => true
  | s :: rest => (!rest.contains s) && strNodup rest

mutual
/-- Well-formedness: every dictionary node has pairwise-distinct
keys. -/
def wfT : OTree → Bool
  | .tens _ _ => true
  | .odict _ kids => strNodup (dictKeys kids) && wfK kids
  | .oiter _ kids => wfK kids
  | .oatom _ => true
def wfK : OKids → Bool
  | .nil => true
  | .cons _ t r => wfT t && wfK r
end

/-- A concrete heap for the amended C5 law: a dictionary root at `0`
with two distinct float-tensor children at `1` and `2`, and two fresh
float tensors at `3` and `4` standing by as replacements. -/
def roundHeap : Heap := fun n =>
  match n with
  | 0 => .dict [("a", 1), ("b", 2)]
  | 1 => .tensor .float32
  | 2 => .tensor .float64
  | 3 => .tensor .float32
  | 4 => .tensor .float32
  | _ => .atom

/-- The alias-free tree describing `roundHeap`'s root object. -/
def roundTree : OTree :=
  .odict 0 (.cons "a" (.tens 1 .float32) (.cons "b" (.tens 2 .float64) .nil))

/-! ## Theorems -/

/-! ### Lemmas about the verifier loops -/

/-- When every declared parameter is a floating-point tensor, the
non-float check passes. -/
theorem checkFloatLoop_none {ps : List PVal}
    (h : ∀ p ∈ ps, p.isTensor = true ∧ p.dtype.isFloat = true) :
    ∀ i, checkFloatLoop i ps = none := by
  induction ps with
  | nil => intro i; rfl
  | cons q qs ih =>
    intro i
    have hq := h q (by simp)
    simp [checkFloatLoop, hq.1, hq.2]
    exact ih (fun p hp => h p (by simp [hp])) (i+1)

/-- An operating parameter whose id is not declared lands in the
missing-name warning list. -/
theorem mem_missingNames {userIds : List Nat} {nm : String} {pid : Nat} :
    ∀ {ops : List (String × Nat)}, (nm, pid) ∈ ops → pid ∉ userIds →
      nm ∈ missingNames ops userIds := by
  intro ops
  induction ops with
  | nil => intro hmem _; simp at hmem
  | cons hd tl ih =>
    intro hmem habs
    obtain ⟨hnm, hpid⟩ := hd
    rcases List.mem_cons.mp hmem with h | h
    · injection h with h1 h2
      subst h1; subst h2
      simp [missingNames, habs]
    · by_cases hc : hpid ∈ userIds <;> simp [missingNames, hc, ih h habs]

/-- `_get_tensor_name` succeeds on ids present among the reachable
tensors. -/
theorem getTensorName_isSome {allT : List (Nat × String)} {pid : Nat} {nm : String}
    (h : (pid, nm) ∈ allT) : ∃ nm', getTensorName allT pid = some nm' := by
  induction allT with
  | nil => simp at h
  | cons hd tl ih =>
    obtain ⟨aid, anm⟩ := hd
    by_cases he : aid = pid
    · exact ⟨anm, by simp [getTensorName, he]⟩
    · rcases List.mem_cons.mp h with h1 | h1
      · exact absurd (congrArg Prod.fst h1.symm) he
      · obtain ⟨nm', hn⟩ := ih h1
        exact ⟨nm', by simp [getTensorName, he, hn]⟩

/-- When every declared id is reachable, the excess loop completes
without the not-a-member error, and collects names exactly when some
declared id received no gradient. -/
theorem excessLoop_ok {allT : List (Nat × String)} {operIds : List Nat} :
    ∀ {ps : List PVal}, (∀ p ∈ ps, ∃ nm', getTensorName allT p.addr = some nm') →
    ∀ i, ∃ nms, excessLoop allT operIds i ps = .ok nms ∧
      (nms = [] ↔ ∀ p ∈ ps, p.addr ∈ operIds) := by
  intro ps
  induction ps with
  | nil => intro _ i; exact ⟨[], rfl, by simp⟩
  | cons q qs ih =>
    intro hmem i
    obtain ⟨nms, hok, hiff⟩ := ih (fun p hp => hmem p (by simp [hp])) (i+1)
    by_cases hq : q.addr ∈ operIds
    · refine ⟨nms, ?_, ?_⟩
      · simp [excessLoop, hq, hok]
      · simpa [hq] using hiff
    · obtain ⟨nm', hn⟩ := hmem q (by simp)
      refine ⟨nm' :: nms, ?_, ?_⟩
      · simp [excessLoop, hq, hn, hok]
      · simp [hq]

/-- C4: in the gradient-probing check, when the declared parameters are
floating-point tensors that are reachable members of the object: every
probed tensor with a non-absent gradient missing from `getparams`
produces a (non-fatal) warning entry; if no declared parameter lacks a
gradient the check returns no fatal error; and any declared parameter
that received no gradient while being reachable makes the check return
the fatal excess-parameter error. -/
theorem claim_C4_missing_warns_excess_fatal
    (operParams : List (String × Nat)) (userParams : List PVal)
    (allTensors : List (Nat × String))
    (hfloat : ∀ p ∈ userParams, p.isTensor = true ∧ p.dtype.isFloat = true)
    (hmember : ∀ p ∈ userParams, ∃ nm, (p.addr, nm) ∈ allTensors) :
    (∀ nm pid, (nm, pid) ∈ operParams → pid ∉ userParams.map (fun p => p.addr) →
       nm ∈ (assertGetCorrectParams operParams userParams allTensors).1) ∧
    ((∀ p ∈ userParams, p.addr ∈ operParams.map (fun p => p.2)) →
       (assertGetCorrectParams operParams userParams allTensors).2 = none) ∧
    (∀ p ∈ userParams, p.addr ∉ operParams.map (fun p => p.2) →
       ∃ nms, nms ≠ [] ∧
         (assertGetCorrectParams operParams userParams allTensors).2
           = some (.excess nms)) := by
  have hf := checkFloatLoop_none hfloat 0
  have hmem' : ∀ p ∈ userParams, ∃ nm', getTensorName allTensors p.addr = some nm' :=
    fun p hp => (hmember p hp).elim (fun nm h => getTensorName_isSome h)
  obtain ⟨nms, hok, hiff⟩ :=
    @excessLoop_ok allTensors (operParams.map (fun p => p.2)) userParams hmem' 0
  have hassert : assertGetCorrectParams operParams userParams allTensors
      = (missingNames operParams (userParams.map (fun p => p.addr)),
         if nms.isEmpty then none else some (.excess nms)) := by
    simp only [assertGetCorrectParams, hf, hok]
  refine ⟨?_, ?_, ?_⟩
  · intro nm pid hmemo habs
    rw [hassert]
    exact mem_missingNames hmemo habs
  · intro hall
    rw [hassert]
    simp [hiff.mpr hall]
  · intro p hp habs
    refine ⟨nms, ?_, ?_⟩
    · intro hnil
      exact habs (hiff.mp hnil p hp)
    · rw [hassert]
      have : ¬ nms.isEmpty := by
        intro h
        exact (fun hnil => habs (hiff.mp hnil p hp)) (List.isEmpty_iff.mp h)
      simp [this]

/-- Witness for C4: the operation's output depends on tensor 1 (named
`self.w`, undeclared, so only warned) while the declared tensor 2
(`self.b`, reachable) received no gradient, so the check is fatal. -/
theorem claim_C4_missing_warns_excess_fatal_witness :
    (∀ nm pid, (nm, pid) ∈ [("self.w", 1)] →
       pid ∉ ([⟨2, true, .float32⟩] : List PVal).map (fun p => p.addr) →
       nm ∈ (assertGetCorrectParams [("self.w", 1)] [⟨2, true, .float32⟩]
              [(1, "self.w"), (2, "self.b")]).1) ∧
    ((∀ p ∈ ([⟨2, true, .float32⟩] : List PVal),
        p.addr ∈ ([("self.w", 1)] : List (String × Nat)).map (fun p => p.2)) →
       (assertGetCorrectParams [("self.w", 1)] [⟨2, true, .float32⟩]
          [(1, "self.w"), (2, "self.b")]).2 = none) ∧
    (∀ p ∈ ([⟨2, true, .float32⟩] : List PVal),
       p.addr ∉ ([("self.w", 1)] : List (String × Nat)).map (fun p => p.2) →
       ∃ nms, nms ≠ [] ∧
         (assertGetCorrectParams [("self.w", 1)] [⟨2, true, .float32⟩]
            [(1, "self.w"), (2, "self.b")]).2 = some (.excess nms)) :=
  claim_C4_missing_warns_excess_fatal [("self.w", 1)] [⟨2, true, .float32⟩]
    [(1, "self.w"), (2, "self.b")]
    (by decide) (fun p hp => ⟨"self.b", by simp at hp; simp [hp]⟩)

/-- C1: for a full parameter list `[a, b, a, c]` with positions 0 and 2
holding the same tensor by identity, `_get_unique_params_idxs` returns
the unique-index list `[0, 1, 3]` and the group map `[[0,2],[1],[3]]`,
and `setuniqueparams(op, a2, b2, c2)` passes the reconstructed full
list `[a2, b2, a2, c2]` to `setparams`. -/
theorem claim_C1_dedup {α : Type} (sp : α → String → List (Option Nat) → α)
    (o : α) (a b c a2 b2 c2 : Nat) (hab : a ≠ b) (hac : a ≠ c) (hbc : b ≠ c) :
    (getUniqueParamsIdxs (fun _ => []) EMCache.empty "f" (some [a, b, a, c])).1 = [0, 1, 3] ∧
    (getUniqueParamsIdxs (fun _ => []) EMCache.empty "f" (some [a, b, a, c])).2.1.uMaps.lookup "f"
      = some [[0, 2], [1], [3]] ∧
    setuniqueparams sp
      ⟨o, (getUniqueParamsIdxs (fun _ => []) EMCache.empty "f" (some [a, b, a, c])).2.1⟩
      "f" [a2, b2, c2]
      = some ⟨sp o "f" [some a2, some b2, some a2, some c2],
              (getUniqueParamsIdxs (fun _ => []) EMCache.empty "f" (some [a, b, a, c])).2.1⟩ := by
  refine ⟨?_, ?_, ?_⟩ <;>
  simp [getUniqueParamsIdxs, EMCache.empty, uniqueScan, uniqueScanAux, listIndex, appendAt,
    setuniqueparams, reconstructFull, reconstructLoop, setGroup, hab, hac, hbc,
    Ne.symm hab, Ne.symm hac, Ne.symm hbc]

/-- Witness for C1 at the concrete input `[10, 20, 10, 30]` with
replacements `11, 21, 31` and a `setparams` that records its argument. -/
theorem claim_C1_dedup_witness :
    (getUniqueParamsIdxs (fun _ => []) EMCache.empty "f" (some [10, 20, 10, 30])).1 = [0, 1, 3] ∧
    (getUniqueParamsIdxs (fun _ => []) EMCache.empty "f"
      (some [10, 20, 10, 30])).2.1.uMaps.lookup "f" = some [[0, 2], [1], [3]] ∧
    setuniqueparams (fun (_ : List (Option Nat)) (_ : String) l => l)
      ⟨[], (getUniqueParamsIdxs (fun _ => []) EMCache.empty "f" (some [10, 20, 10, 30])).2.1⟩
      "f" [11, 21, 31]
      = some ⟨[some 11, some 21, some 11, some 31],
              (getUniqueParamsIdxs (fun _ => []) EMCache.empty "f" (some [10, 20, 10, 30])).2.1⟩ :=
  claim_C1_dedup (fun (_ : List (Option Nat)) (_ : String) l => l) []
    10 20 30 11 21 31 (by decide) (by decide) (by decide)

/-- C7: the unique-index computation runs at most once per
(instance, operation name): a first (cache-missing) call stores the
unique-index list, and every subsequent call — with any `getparams`
function and any `allparams` argument — returns the stored result with
an unchanged cache and without invoking `getparams` (the returned flag
is `false`). -/
theorem claim_C7_cache_once (gp : Unit → List Nat) (c : EMCache) (name : String)
    (ap? : Option (List Nat))
    (hmiss : c.hasCache = false ∨ c.uIdxs.lookup name = none) :
    (getUniqueParamsIdxs gp c name ap?).2.1.uIdxs.lookup name
        = some (getUniqueParamsIdxs gp c name ap?).1 ∧
    (getUniqueParamsIdxs gp c name ap?).2.1.hasCache = true ∧
    ∀ (gp2 : Unit → List Nat) (ap2? : Option (List Nat)),
      getUniqueParamsIdxs gp2 (getUniqueParamsIdxs gp c name ap?).2.1 name ap2?
        = ((getUniqueParamsIdxs gp c name ap?).1,
           (getUniqueParamsIdxs gp c name ap?).2.1, false) := by
  have hlook : (if c.hasCache then c else ⟨true, [], [], []⟩).uIdxs.lookup name = none := by
    rcases hmiss with h | h
    · simp [h]
    · cases hc : c.hasCache <;> simp [hc, h]
  refine ⟨?_, ?_, fun gp2 ap2? => ?_⟩ <;>
    simp only [getUniqueParamsIdxs, hlook] <;> simp

/-- Witness for C7 on a fresh cache with full list `[5, 5, 6]`. -/
theorem claim_C7_cache_once_witness :
    (getUniqueParamsIdxs (fun _ => [5, 5, 6]) EMCache.empty "g" none).2.1.uIdxs.lookup "g"
        = some (getUniqueParamsIdxs (fun _ => [5, 5, 6]) EMCache.empty "g" none).1 ∧
    (getUniqueParamsIdxs (fun _ => [5, 5, 6]) EMCache.empty "g" none).2.1.hasCache = true ∧
    ∀ (gp2 : Unit → List Nat) (ap2? : Option (List Nat)),
      getUniqueParamsIdxs gp2
          (getUniqueParamsIdxs (fun _ => [5, 5, 6]) EMCache.empty "g" none).2.1 "g" ap2?
        = ((getUniqueParamsIdxs (fun _ => [5, 5, 6]) EMCache.empty "g" none).1,
           (getUniqueParamsIdxs (fun _ => [5, 5, 6]) EMCache.empty "g" none).2.1, false) :=
  claim_C7_cache_once (fun _ => [5, 5, 6]) EMCache.empty "g" none (Or.inl rfl)

/-- C9 counterexample: a reachable non-leaf value (the atom at address
1) exposes neither an attribute dictionary nor iteration, yet the
traversal completes without any structural error — it skips the value
silently instead of failing. -/
theorem claim_C9_counterexample :
    critFloatTensor (atomChildHeap 1) = false ∧
    (atomChildHeap 1).entries = none ∧
    getTensors atomChildHeap 0 = (([], []), none) := by
  refine ⟨rfl, rfl, ?_⟩
  decide

/-- C9 amended: the structural `RuntimeError` is raised exactly when
the value `_traverse_obj` is invoked on (the root of a traversal call)
exposes neither attribute access nor iteration; a non-tensor child
value lacking both is skipped silently and the loop continues with the
remaining children. -/
theorem claim_C9_amended {σ : Type} (act : TAction σ)
    (recur : Nat → String → TState σ → TState σ × Option TravErr)
    (fuel root owner ca : Nat) (pfx : String) (k : SKey)
    (rest : List (SKey × Nat)) (st st' : TState σ)
    (hroot : (st.heap root).entries = none)
    (hskip : ca ∉ st'.visited)
    (hcrit : critFloatTensor (st'.heap ca) = false)
    (hentries : (st'.heap ca).entries = none) :
    traverseObj act fuel root pfx st = (st, some .notKeyable) ∧
    traverseList act recur owner pfx ((k, ca) :: rest) st'
      = traverseList act recur owner pfx rest
          { st' with visited := st'.visited ++ [ca] } := by
  constructor
  · cases fuel <;> simp [traverseObj, traverseStep, hroot]
  · simp [traverseList, hskip, hcrit, hentries]

/-- Witness for C9 amended: root atom at address 0 fails, and an atom
child is skipped. -/
theorem claim_C9_amended_witness :
    traverseObj getAction 20 1 "self" ⟨atomChildHeap, [], ([], [])⟩
      = (⟨atomChildHeap, [], ([], [])⟩, some .notKeyable) ∧
    traverseList getAction (fun _ _ s => (s, none)) 0 "self" [(SKey.attr "x", 1)]
        ⟨atomChildHeap, [], ([], [])⟩
      = traverseList getAction (fun _ _ s => (s, none)) 0 "self" []
          ⟨atomChildHeap, [1], ([], [])⟩ :=
  claim_C9_amended getAction (fun _ _ s => (s, none)) 20 1 0 1 "self"
    (SKey.attr "x") [] ⟨atomChildHeap, [], ([], [])⟩ ⟨atomChildHeap, [], ([], [])⟩
    rfl (by decide) rfl rfl

/-! ### C8: depth-bound behaviour -/

/-- Traversing `infChainHeap` from any even address with any fuel ends
in the `RecursionError`, having collected exactly the tensors at the
nesting depths the fuel allowed. -/
theorem infChain_traverse : ∀ (f k : Nat) (st : TState (List Nat × List String))
    (pfx : String), st.heap = infChainHeap → (∀ x ∈ st.visited, x ≤ 2*k) →
    ∃ stout nms, traverseObj getAction f (2*k) pfx st = (stout, some .recursionDepth)
      ∧ stout.acc.1 = st.acc.1 ++ chainTensors k f
      ∧ stout.acc.2 = st.acc.2 ++ nms := by
  intro f
  induction f with
  | zero =>
    intro k st pfx hh hv
    have h0 : (2*k) % 2 = 0 := by omega
    have h1 : ¬((2*k+1) % 2 = 0) := by omega
    have h2 : (2*k+2) % 2 = 0 := by omega
    have hm1 : 2*k+1 ∉ st.visited := fun hm => by have := hv _ hm; omega
    have hm2 : 2*k+2 ∉ st.visited := fun hm => by have := hv _ hm; omega
    have hne : ¬(2*k+2 = 2*k+1) := by omega
    obtain ⟨hp, v, a⟩ := st
    simp only at hh
    subst hh
    simp only at hm1 hm2 ⊢
    simp only [traverseObj, traverseStep, infChainHeap, h0, reduceIte, Node.entries,
      List.map_cons, List.map_nil, traverseList, List.elem_eq_mem, decide_eq_true_eq,
      hm1, hm2, hne, decide_False, Bool.false_eq_true, if_false, List.mem_append,
      List.mem_singleton, or_false, critFloatTensor, h1, h2, Dtype.isFloat, getAction,
      Option.isSome, reduceIte]
    refine ⟨_, [fmtName pfx (SKey.attr "t")], rfl, ?_, ?_⟩ <;> simp [chainTensors]
  | succ f ih =>
    intro k st pfx hh hv
    have h0 : (2*k) % 2 = 0 := by omega
    have h1 : ¬((2*k+1) % 2 = 0) := by omega
    have h2 : (2*k+2) % 2 = 0 := by omega
    have hm1 : 2*k+1 ∉ st.visited := fun hm => by have := hv _ hm; omega
    have hm2 : 2*k+2 ∉ st.visited := fun hm => by have := hv _ hm; omega
    have hne : ¬(2*k+2 = 2*k+1) := by omega
    obtain ⟨hp, v, a⟩ := st
    simp only at hh
    subst hh
    simp only at hm1 hm2 hv ⊢
    have hv' : ∀ x ∈ (v ++ [2*k+1] ++ [2*k+2]), x ≤ 2*(k+1) := by
      intro x hx
      rcases List.mem_append.mp hx with hx | hx
      · rcases List.mem_append.mp hx with hx | hx
        · have := hv _ hx; omega
        · simp at hx; omega
      · simp at hx; omega
    obtain ⟨stout, nms, hrun, hacc1, hacc2⟩ :=
      ih (k+1) ⟨infChainHeap, v ++ [2*k+1] ++ [2*k+2],
        (a.1 ++ [2*k+1], a.2 ++ [fmtName pfx (SKey.attr "t")])⟩
        (fmtName pfx (SKey.attr "x")) rfl hv'
    have h22 : 2*(k+1) = 2*k+2 := by omega
    rw [h22] at hrun
    simp only [traverseObj, traverseStep, infChainHeap, h0, reduceIte, Node.entries,
      List.map_cons, List.map_nil, traverseList, List.elem_eq_mem, decide_eq_true_eq,
      hm1, hm2, hne, decide_False, Bool.false_eq_true, if_false, List.mem_append,
      List.mem_singleton, or_false, critFloatTensor, h1, h2, Dtype.isFloat, getAction,
      Option.isSome, reduceIte, hrun]
    refine ⟨stout, fmtName pfx (SKey.attr "t") :: nms, rfl, ?_, ?_⟩
    · rw [hacc1]; simp [chainTensors]
    · rw [hacc2]; simp

/-- `chainTensors k f` holds one tensor per nesting level `0, …, f`. -/
theorem chainTensors_length : ∀ f k, (chainTensors k f).length = f + 1 := by
  intro f
  induction f with
  | zero => intro k; rfl
  | succ f ih => intro k; simp [chainTensors, ih (k+1)]

/-- C8 counterexample: `deepAliasHeap` has non-tensor nesting depth 21,
strictly deeper than the configured bound 20, yet `_get_tensors`
completes without any depth-exceeded error because the deepest chain
node was first visited through a shallow alias; the same chain without
the alias does raise the `RecursionError`. -/
theorem claim_C8_counterexample :
    20 < nestingDepth deepAliasHeap 100 0 ∧
    (getTensors deepAliasHeap 0 20).2 = none ∧
    (getTensors deepChainHeap 0 20).2 = some .recursionDepth ∧
    nestingDepth deepChainHeap 100 0 = nestingDepth deepAliasHeap 100 0 := by
  decide

/-- C8 amended: for every configured depth bound, a (non-aliased) graph
nested deeper than the bound makes the traversal raise the fatal
`RecursionError` — not truncate silently — and the float tensors at
depths up to the bound have still been visited normally (the action ran
on exactly those `fuel + 1` tensors, in order). -/
theorem claim_C8_amended_depth_error (fuel : Nat) :
    ∃ nms, getTensors infChainHeap 0 fuel
        = ((chainTensors 0 fuel, nms), some .recursionDepth)
      ∧ (chainTensors 0 fuel).length = fuel + 1 := by
  obtain ⟨stout, nms, hrun, h1, h2⟩ :=
    infChain_traverse fuel 0 ⟨infChainHeap, [], ([], [])⟩ "self" rfl (by simp)
  rw [show (2*0 : Nat) = 0 from rfl] at hrun
  refine ⟨nms, ?_, chainTensors_length fuel 0⟩
  unfold getTensors
  rw [hrun]
  simp [Prod.ext_iff, h1, h2]

/-! ### Traversal visit-at-most-once invariant -/

/-- The child loop preserves the collection invariant, and only ever
appends to `exception_ids`, for any recursion callback that does the
same. -/
theorem getTraverseList_inv
    (recur : Nat → String → TState (List Nat × List String) →
      TState (List Nat × List String) × Option TravErr)
    (hrec : ∀ a p s, GetInv s → GetInv (recur a p s).1 ∧
        ∃ ext, (recur a p s).1.visited = s.visited ++ ext) :
    ∀ (es : List (SKey × Nat)) (owner : Nat) (pfx : String) st, GetInv st →
      GetInv (traverseList getAction recur owner pfx es st).1 ∧
      ∃ ext, (traverseList getAction recur owner pfx es st).1.visited
        = st.visited ++ ext := by
  intro es
  induction es with
  | nil => intro owner pfx st h; exact ⟨h, [], by simp [traverseList]⟩
  | cons hd tl ih =>
    intro owner pfx st h
    obtain ⟨k, ca⟩ := hd
    by_cases hc : ca ∈ st.visited
    · simpa [traverseList, hc] using ih owner pfx st h
    · have hnotacc : ca ∉ st.acc.1 := fun hin => hc (h.2 ca hin)
      by_cases hcrit : critFloatTensor (st.heap ca) = true
      · have hinv2 : GetInv ⟨st.heap, st.visited ++ [ca],
            (st.acc.1 ++ [ca], st.acc.2 ++ [fmtName pfx k])⟩ := by
          constructor
          · simp [List.nodup_append, h.1, hnotacc]
          · intro a ha
            rcases List.mem_append.mp ha with ha | ha
            · exact List.mem_append.mpr (Or.inl (h.2 a ha))
            · exact List.mem_append.mpr (Or.inr ha)
        obtain ⟨hI, ext, hv⟩ := ih owner pfx _ hinv2
        refine ⟨?_, ⟨[ca] ++ ext, ?_⟩⟩ <;>
          simp [traverseList, hc, hcrit, getAction, hI, hv]
      · by_cases hent : ((st.heap ca).entries).isSome
        · have hinv1 : GetInv ⟨st.heap, st.visited ++ [ca], st.acc⟩ := by
            constructor
            · exact h.1
            · intro a ha; exact List.mem_append.mpr (Or.inl (h.2 a ha))
          obtain ⟨hIr, ext1, hvr⟩ := hrec ca (fmtName pfx k) _ hinv1
          rcases hre : recur ca (fmtName pfx k) ⟨st.heap, st.visited ++ [ca], st.acc⟩
            with ⟨st2, e2⟩
          rw [hre] at hIr hvr
          simp only at hvr
          cases e2 with
          | some e =>
            refine ⟨?_, ⟨[ca] ++ ext1, ?_⟩⟩ <;>
              simp [traverseList, hc, hcrit, hent, hre, hIr, hvr]
          | none =>
            obtain ⟨hI, ext2, hv2⟩ := ih owner pfx st2 hIr
            refine ⟨?_, ⟨[ca] ++ ext1 ++ ext2, ?_⟩⟩ <;>
              simp [traverseList, hc, hcrit, hent, hre, hI, hv2, hvr]
        · have hinv1 : GetInv ⟨st.heap, st.visited ++ [ca], st.acc⟩ := by
            constructor
            · exact h.1
            · intro a ha; exact List.mem_append.mpr (Or.inl (h.2 a ha))
          obtain ⟨hI, ext, hv⟩ := ih owner pfx _ hinv1
          refine ⟨?_, ⟨[ca] ++ ext, ?_⟩⟩ <;>
            simp [traverseList, hc, hcrit, hent, hI, hv]

/-- `_traverse_obj` with the collecting action preserves the
invariant at every depth. -/
theorem getTraverseObj_inv :
    ∀ (fuel addr : Nat) (pfx : String) st, GetInv st →
      GetInv (traverseObj getAction fuel addr pfx st).1 ∧
      ∃ ext, (traverseObj getAction fuel addr pfx st).1.visited
        = st.visited ++ ext := by
  intro fuel
  induction fuel with
  | zero =>
    intro addr pfx st h
    rcases hent : (st.heap addr).entries with _ | es
    · exact ⟨by simpa [traverseObj, traverseStep, hent] using h,
        [], by simp [traverseObj, traverseStep, hent]⟩
    · have := getTraverseList_inv (fun _ _ s => (s, some .recursionDepth))
        (fun a p s hs => ⟨hs, [], by simp⟩) es addr pfx st h
      simpa [traverseObj, traverseStep, hent] using this
  | succ f ih =>
    intro addr pfx st h
    rcases hent : (st.heap addr).entries with _ | es
    · exact ⟨by simpa [traverseObj, traverseStep, hent] using h,
        [], by simp [traverseObj, traverseStep, hent]⟩
    · have := getTraverseList_inv (fun a p s => traverseObj getAction f a p s)
        (fun a p s hs => ih a p s hs) es addr pfx st h
      simpa [traverseObj, traverseStep, hent] using this

/-- On any heap whatsoever, `_get_tensors` never collects the same
tensor twice. -/
theorem getTensors_nodup (h : Heap) (root fuel : Nat) :
    ((getTensors h root fuel).1.1).Nodup := by
  have := getTraverseObj_inv fuel root "self" ⟨h, [], ([], [])⟩
    ⟨List.nodup_nil, by simp⟩
  simpa [getTensors] using this.1.1

/-- C6: on the two-object cycle `A ↔ B` (each also holding a float
tensor), the traversal terminates — no depth error is raised despite
the cycle — and the action collects each distinct tensor exactly once;
moreover on every heap the collected tensors are pairwise distinct
(never visited twice). -/
theorem claim_C6_cycle_terminates (aA aB t1 t2 : Nat) (d1 d2 : Dtype)
    (h1 : aA ≠ aB) (h2 : aA ≠ t1) (h3 : aA ≠ t2) (h4 : aB ≠ t1) (h5 : aB ≠ t2)
    (h6 : t1 ≠ t2) (hd1 : d1.isFloat = true) (hd2 : d2.isFloat = true) :
    getTensors (cycleHeap aA aB t1 t2 d1 d2) aA 20
      = (([t1, t2], ["self.b.a.ta", "self.b.tb"]), none) ∧
    ∀ (h : Heap) (root fuel : Nat), ((getTensors h root fuel).1.1).Nodup := by
  refine ⟨?_, fun h root fuel => getTensors_nodup h root fuel⟩
  simp [getTensors, traverseObj, traverseStep, traverseList, cycleHeap,
    Node.entries, critFloatTensor, getAction, fmtName, hd1, hd2,
    h1, h2, h3, h4, h5, h6, Ne.symm h1, Ne.symm h2, Ne.symm h3,
    Ne.symm h4, Ne.symm h5, Ne.symm h6]

/-- Witness for C6 at addresses `A = 0`, `B = 1`, tensors `2` and `3`. -/
theorem claim_C6_cycle_terminates_witness :
    getTensors (cycleHeap 0 1 2 3 .float32 .float32) 0 20
      = (([2, 3], ["self.b.a.ta", "self.b.tb"]), none) ∧
    ∀ (h : Heap) (root fuel : Nat), ((getTensors h root fuel).1.1).Nodup :=
  claim_C6_cycle_terminates 0 1 2 3 .float32 .float32
    (by decide) (by decide) (by decide) (by decide) (by decide) (by decide) rfl rfl

/-- C10: when the same tensor `t` occupies the two slots `x` and `y`,
the traversal visits it only at the first slot: `_get_tensors` collects
it once (under the first slot's name), and `_set_tensors` writes the
replacement `p` only into slot `x`, leaving slot `y` still holding `t`,
so that a subsequent collection returns `[p, t]`. -/
theorem claim_C10_alias_first_slot (rt t p : Nat) (dt dtp : Dtype)
    (h1 : rt ≠ t) (h2 : rt ≠ p) (h3 : t ≠ p)
    (hdt : dt.isFloat = true) (hdtp : dtp.isFloat = true) :
    getTensors (aliasPairHeap rt t p dt dtp) rt 20 = (([t], ["self.x"]), none) ∧
    (setTensors (aliasPairHeap rt t p dt dtp) rt [p] 20).2 = none ∧
    (setTensors (aliasPairHeap rt t p dt dtp) rt [p] 20).1.2 = [] ∧
    ((setTensors (aliasPairHeap rt t p dt dtp) rt [p] 20).1.1) rt
      = .dict [("x", p), ("y", t)] ∧
    getTensors ((setTensors (aliasPairHeap rt t p dt dtp) rt [p] 20).1.1) rt 20
      = (([p, t], ["self.x", "self.y"]), none) := by
  refine ⟨?_, ?_, ?_, ?_, ?_⟩ <;>
  simp [setTensors, getTensors, traverseObj, traverseStep, traverseList, aliasPairHeap,
    Node.entries, critFloatTensor, getAction, setAction, setSlot, fmtName,
    h1, h2, h3, Ne.symm h1, Ne.symm h2, Ne.symm h3, hdt, hdtp]

/-- Witness for C10 at `rt = 0`, `t = 1`, `p = 2`. -/
theorem claim_C10_alias_first_slot_witness :
    getTensors (aliasPairHeap 0 1 2 .float32 .float32) 0 20
      = (([1], ["self.x"]), none) ∧
    (setTensors (aliasPairHeap 0 1 2 .float32 .float32) 0 [2] 20).2 = none ∧
    (setTensors (aliasPairHeap 0 1 2 .float32 .float32) 0 [2] 20).1.2 = [] ∧
    ((setTensors (aliasPairHeap 0 1 2 .float32 .float32) 0 [2] 20).1.1) 0
      = .dict [("x", 2), ("y", 1)] ∧
    getTensors ((setTensors (aliasPairHeap 0 1 2 .float32 .float32) 0 [2] 20).1.1) 0 20
      = (([2, 1], ["self.x", "self.y"]), none) :=
  claim_C10_alias_first_slot 0 1 2 .float32 .float32
    (by decide) (by decide) (by decide) rfl rfl

/-- C5 counterexample: the acyclic graph `aliasPairHeap 0 1 2` has
exactly one matched tensor slot (`N = 1`); installing the one-element
list `[2]` and collecting again yields `[2, 1]`, not the installed list
`[2]` — the claimed collect/install inverse law fails on acyclic graphs
with aliased tensor slots. -/
theorem claim_C5_counterexample :
    (getTensors (aliasPairHeap 0 1 2 .float32 .float32) 0 20).1.1.length = 1 ∧
    (getTensors (aliasPairHeap 0 1 2 .float32 .float32) 0 20).2 = none ∧
    (setTensors (aliasPairHeap 0 1 2 .float32 .float32) 0 [2] 20).2 = none ∧
    (getTensors ((setTensors (aliasPairHeap 0 1 2 .float32 .float32) 0 [2] 20).1.1) 0 20).1.1
      = [2, 1] ∧
    ¬ (getTensors ((setTensors (aliasPairHeap 0 1 2 .float32 .float32) 0 [2] 20).1.1) 0 20).1.1
      = [2] := by
  decide

/-! ### The unique-parameter scan invariant and `useparams` -/

theorem listIndex_spec {p : Nat} : ∀ {ids : List Nat} {j : Nat},
    listIndex p ids = some j → j < ids.length ∧ ids[j]? = some p := by
  intro ids
  induction ids with
  | nil => intro j h; simp [listIndex] at h
  | cons y ys ih =>
    intro j h
    by_cases hy : y = p
    · simp [listIndex, hy] at h
      subst h
      simp [hy]
    · simp [listIndex, hy] at h
      obtain ⟨j', hj', rfl⟩ := h
      obtain ⟨hlt, hget⟩ := ih hj'
      exact ⟨by simpa using hlt, by simpa using hget⟩

theorem appendAt_length : ∀ (gs : List (List Nat)) (j x : Nat),
    (appendAt gs j x).length = gs.length := by
  intro gs
  induction gs with
  | nil => intro j x; rfl
  | cons g gs ih =>
    intro j x
    cases j with
    | zero => rfl
    | succ j => simp [appendAt, ih]

theorem appendAt_getElem? : ∀ (gs : List (List Nat)) (j x j' : Nat),
    (appendAt gs j x)[j']? = if j' = j then (gs[j']?).map (fun g => g ++ [x])
      else gs[j']? := by
  intro gs
  induction gs with
  | nil => intro j x j'; simp [appendAt]
  | cons g gs ih =>
    intro j x j'
    cases j with
    | zero =>
      cases j' with
      | zero => simp [appendAt]
      | succ j' => simp [appendAt]
    | succ j =>
      cases j' with
      | zero => simp [appendAt]
      | succ j' =>
        simp only [appendAt, List.getElem?_cons_succ, ih j x j']
        by_cases hj : j' = j <;> simp [hj]

theorem appendAt_flatten_perm : ∀ (gs : List (List Nat)) (j x : Nat), j < gs.length →
    (appendAt gs j x).flatten.Perm (gs.flatten ++ [x]) := by
  intro gs
  induction gs with
  | nil => intro j x h; simp at h
  | cons g gs ih =>
    intro j x h
    cases j with
    | zero =>
      simp only [appendAt, List.flatten_cons]
      have h1 : (g ++ [x]) ++ gs.flatten = g ++ ([x] ++ gs.flatten) := by simp
      have h2 : (g ++ gs.flatten) ++ [x] = g ++ (gs.flatten ++ [x]) := by simp
      rw [h1, h2]
      exact List.Perm.append_left g List.perm_append_comm
    | succ j =>
      simp only [appendAt, List.flatten_cons]
      have hp := ih j x (by simpa using h)
      have h2 : (g ++ gs.flatten) ++ [x] = g ++ (gs.flatten ++ [x]) := by simp
      rw [h2]
      exact List.Perm.append_left g hp



theorem uniqueScanAux_inv : ∀ (rest pre ap ids idxs : List Nat)
    (gmap : List (List Nat)), ap = pre ++ rest →
    ScanInv ap pre.length ids idxs gmap →
    ScanInv ap ap.length (uniqueScanAux ids idxs gmap pre.length rest).1
      (uniqueScanAux ids idxs gmap pre.length rest).2.1
      (uniqueScanAux ids idxs gmap pre.length rest).2.2 := by
  intro rest
  induction rest with
  | nil =>
    intro pre ap ids idxs gmap hap hinv
    subst hap
    simpa [uniqueScanAux] using hinv
  | cons p rest ih =>
    intro pre ap ids idxs gmap hap hinv
    have hl1 := hinv.len1
    have hl2 := hinv.len2
    have hget : ap[pre.length]? = some p := by
      subst hap
      rw [List.getElem?_append_right (le_refl pre.length)]
      simp
    rcases hfind : listIndex p ids with _ | j
    · -- fresh id: append new group
      have hpre : ap = (pre ++ [p]) ++ rest := by simp [hap]
      have hlen : (pre ++ [p]).length = pre.length + 1 := by simp
      have hinv' : ScanInv ap (pre.length + 1) (ids ++ [p]) (idxs ++ [pre.length])
          (gmap ++ [[pre.length]]) := by
        constructor
        · simp [hinv.len1]
        · simp [hinv.len2]
        · rw [List.flatten_append, List.range_succ]
          simpa using hinv.perm.append_right [pre.length]
        · intro g hg x hx
          rcases List.mem_append.mp hg with hg | hg
          · exact Nat.lt_succ_of_lt (hinv.bound g hg x hx)
          · simp at hg
            subst hg
            simp at hx
            subst hx
            exact Nat.lt_succ_self _
        · intro j g hj x hx
          by_cases hlt : j < gmap.length
          · rw [List.getElem?_append_left hlt] at hj
            rw [List.getElem?_append_left (by omega : j < ids.length)]
            exact hinv.value j g hj x hx
          · have hjeq : j = gmap.length := by
              by_contra hne
              have : gmap.length + 1 ≤ j := by omega
              rw [List.getElem?_eq_none (by simpa using this)] at hj
              exact Option.noConfusion hj
            subst hjeq
            rw [List.getElem?_append_right (le_refl _)] at hj
            simp at hj
            subst hj
            simp at hx
            subst hx
            rw [List.getElem?_append_right (by omega : ids.length ≤ gmap.length)]
            · rw [hget]
              have : gmap.length - ids.length = 0 := by
                have := hinv.len1; have := hinv.len2; omega
              simp [this]
        · intro j k hj
          by_cases hlt : j < idxs.length
          · rw [List.getElem?_append_left hlt] at hj
            obtain ⟨g, hg, hk⟩ := hinv.idxmem j k hj
            refine ⟨g, ?_, hk⟩
            rw [List.getElem?_append_left (by omega : j < gmap.length)]
            exact hg
          · have hjeq : j = idxs.length := by
              by_contra hne
              have : idxs.length + 1 ≤ j := by omega
              rw [List.getElem?_eq_none (by simpa using this)] at hj
              exact Option.noConfusion hj
            subst hjeq
            rw [List.getElem?_append_right (le_refl _)] at hj
            simp at hj
            refine ⟨[pre.length], ?_, by simp [hj]⟩
            rw [List.getElem?_append_right (by omega : gmap.length ≤ idxs.length)]
            have : idxs.length - gmap.length = 0 := by have := hinv.len2; omega
            simp [this]
      have := ih (pre ++ [p]) ap (ids ++ [p]) (idxs ++ [pre.length])
        (gmap ++ [[pre.length]]) hpre (by rwa [hlen])
      simpa [uniqueScanAux, hfind, hlen] using this
    · -- existing id at position j: extend its group
      obtain ⟨hjlt, hjget⟩ := listIndex_spec hfind
      have hpre : ap = (pre ++ [p]) ++ rest := by simp [hap]
      have hlen : (pre ++ [p]).length = pre.length + 1 := by simp
      have hjlt' : j < gmap.length := by
        have := hinv.len1; have := hinv.len2; omega
      have hinv' : ScanInv ap (pre.length + 1) ids idxs
          (appendAt gmap j pre.length) := by
        constructor
        · exact hinv.len1
        · rw [hinv.len2, (appendAt_length gmap j pre.length).symm]
        · refine ((appendAt_flatten_perm gmap j pre.length hjlt').trans ?_)
          rw [List.range_succ]
          exact hinv.perm.append_right [pre.length]
        · intro g hg x hx
          obtain ⟨j', hj'⟩ := List.getElem?_of_mem hg
          rw [appendAt_getElem?] at hj'
          by_cases hje : j' = j
          · rw [if_pos hje] at hj'
            obtain ⟨g0, hg0, rfl⟩ := Option.map_eq_some'.mp hj'
            rcases List.mem_append.mp hx with hx0 | hx0
            · exact Nat.lt_succ_of_lt
                (hinv.bound g0 (List.getElem?_mem hg0) x hx0)
            · simp at hx0
              subst hx0
              exact Nat.lt_succ_self _
          · rw [if_neg hje] at hj'
            exact Nat.lt_succ_of_lt
              (hinv.bound g (List.getElem?_mem hj') x hx)
        · intro j' g hj' x hx
          rw [appendAt_getElem?] at hj'
          by_cases hje : j' = j
          · subst hje
            rw [if_pos rfl] at hj'
            obtain ⟨g0, hg0, rfl⟩ := Option.map_eq_some'.mp hj'
            rcases List.mem_append.mp hx with hx0 | hx0
            · exact hinv.value j' g0 hg0 x hx0
            · simp at hx0
              subst hx0
              rw [hget, hjget]
          · rw [if_neg hje] at hj'
            exact hinv.value j' g hj' x hx
        · intro j' k hj'
          obtain ⟨g0, hg0, hk⟩ := hinv.idxmem j' k hj'
          by_cases hje : j' = j
          · subst hje
            refine ⟨g0 ++ [pre.length], ?_, List.mem_append.mpr (Or.inl hk)⟩
            rw [appendAt_getElem?, if_pos rfl, hg0]
            rfl
          · refine ⟨g0, ?_, hk⟩
            rw [appendAt_getElem?, if_neg hje]
            exact hg0
      have := ih (pre ++ [p]) ap ids idxs (appendAt gmap j pre.length) hpre
        (by rwa [hlen])
      simpa [uniqueScanAux, hfind, hlen] using this



theorem uniqueScan_inv (ap : List Nat) :
    ScanInv ap ap.length (uniqueScan ap).1 (uniqueScan ap).2.1 (uniqueScan ap).2.2 := by
  have h0 : ScanInv ap 0 [] [] [] := by
    constructor <;> simp
  simpa [uniqueScan] using uniqueScanAux_inv ap [] ap [] [] [] (by simp) (by simpa using h0)

theorem setGroup_spec : ∀ (m : List Nat) (p : Nat) (acc : List (Option Nat)),
    (∀ x ∈ m, x < acc.length) →
    ∃ acc', setGroup m p acc = some acc' ∧ acc'.length = acc.length ∧
      (∀ x ∈ m, acc'[x]? = some (some p)) ∧
      (∀ x : Nat, x ∉ m → acc'[x]? = acc[x]?) := by
  intro m
  induction m with
  | nil => intro p acc _; exact ⟨acc, rfl, rfl, by simp, fun _ _ => rfl⟩
  | cons y m ih =>
    intro p acc hb
    have hy : y < acc.length := hb y (by simp)
    have hb' : ∀ x ∈ m, x < (acc.set y (some p)).length := by
      intro x hx
      simpa using hb x (by simp [hx])
    obtain ⟨acc', hset, hlen, hmem, hout⟩ := ih p (acc.set y (some p)) hb'
    refine ⟨acc', by simpa [setGroup, hy] using hset, by simpa using hlen, ?_, ?_⟩
    · intro x hx
      rcases List.mem_cons.mp hx with rfl | hx
      · by_cases hxm : x ∈ m
        · exact hmem x hxm
        · rw [hout x hxm]
          simp [List.getElem?_set, hy]
      · exact hmem x hx
    · intro x hx
      have hxy : x ≠ y := fun h => hx (h ▸ List.mem_cons_self y m)
      have hxm : x ∉ m := fun h => hx (List.mem_cons_of_mem y h)
      rw [hout x hxm]
      simp [List.getElem?_set, Ne.symm hxy]

theorem reconstructLoop_spec : ∀ (ms : List (List Nat)) (us : List Nat)
    (acc : List (Option Nat)), ms.length = us.length →
    (∀ g ∈ ms, ∀ x ∈ g, x < acc.length) → ms.flatten.Nodup →
    ∃ final, reconstructLoop ms us acc = some final ∧
      final.length = acc.length ∧
      (∀ x : Nat, x ∉ ms.flatten → final[x]? = acc[x]?) ∧
      (∀ (j : Nat) (g : List Nat), ms[j]? = some g → ∀ x ∈ g,
        final[x]? = some (some (us.getD j 0))) := by
  intro ms
  induction ms with
  | nil =>
    intro us acc hlen _ _
    have : us = [] := List.eq_nil_of_length_eq_zero hlen.symm
    subst this
    exact ⟨acc, rfl, rfl, fun _ _ => rfl, by simp⟩
  | cons m ms ih =>
    intro us acc hlen hb hnd
    cases us with
    | nil => simp at hlen
    | cons u us =>
      obtain ⟨acc1, hsg, hlen1, hmem1, hout1⟩ :=
        setGroup_spec m u acc (hb m (by simp))
      have hb' : ∀ g ∈ ms, ∀ x ∈ g, x < acc1.length := by
        intro g hg x hx
        rw [hlen1]
        exact hb g (by simp [hg]) x hx
      have hnd' : ms.flatten.Nodup := by
        rw [List.flatten_cons] at hnd
        exact (List.nodup_append.mp hnd).2.1
      have hdisj : ∀ x ∈ m, x ∉ ms.flatten := by
        rw [List.flatten_cons] at hnd
        intro x hx
        exact (List.nodup_append.mp hnd).2.2 hx
      obtain ⟨final, hrec, hlenf, houtf, hmemf⟩ := ih us acc1 (by simpa using hlen) hb' hnd'
      refine ⟨final, by simp [reconstructLoop, hsg, hrec], by omega, ?_, ?_⟩
      · intro x hx
        rw [List.flatten_cons] at hx
        have hxm : x ∉ m := fun h => hx (List.mem_append.mpr (Or.inl h))
        have hxf : x ∉ ms.flatten := fun h => hx (List.mem_append.mpr (Or.inr h))
        rw [houtf x hxf]
        exact hout1 x hxm
      · intro j g hj x hx
        cases j with
        | zero =>
          simp only [List.getElem?_cons_zero] at hj
          injection hj with hj
          subst hj
          rw [houtf x (hdisj x hx)]
          simpa using hmem1 x hx
        | succ j =>
          simp only [List.getElem?_cons_succ] at hj
          simpa using hmemf j g hj x hx



theorem mapM_getElem?_of_lt (ap : List Nat) : ∀ (l : List Nat),
    (∀ k ∈ l, k < ap.length) →
    l.mapM (fun i => ap[i]?) = some (l.map (fun k => ap.getD k 0)) := by
  intro l
  induction l with
  | nil => intro h; rfl
  | cons k l ih =>
    intro hb
    have hk : k < ap.length := hb k (by simp)
    have hget : ap[k]? = some (ap.getD k 0) := by
      rw [List.getD_eq_getElem?_getD, List.getElem?_eq_getElem hk]
      rfl
    rw [List.mapM_cons, hget, ih (fun x hx => hb x (by simp [hx]))]
    rfl

theorem reconstruct_inverse (ap : List Nat) :
    reconstructLoop (uniqueScan ap).2.2
      ((uniqueScan ap).2.1.map (fun k => ap.getD k 0))
      (List.replicate ap.length none) = some (ap.map some) := by
  have inv := uniqueScan_inv ap
  have hlen : (uniqueScan ap).2.2.length
      = ((uniqueScan ap).2.1.map (fun k => ap.getD k 0)).length := by
    simp [inv.len2]
  have hb : ∀ g ∈ (uniqueScan ap).2.2, ∀ x ∈ g,
      x < (List.replicate ap.length (none : Option Nat)).length := by
    intro g hg x hx
    simpa using inv.bound g hg x hx
  have hnd : (uniqueScan ap).2.2.flatten.Nodup :=
    (inv.perm.nodup_iff).mpr (List.nodup_range ap.length)
  obtain ⟨final, hrec, hlenf, hout, hmem⟩ :=
    reconstructLoop_spec (uniqueScan ap).2.2
      ((uniqueScan ap).2.1.map (fun k => ap.getD k 0))
      (List.replicate ap.length none) hlen hb hnd
  rw [hrec]
  congr 1
  apply List.ext_getElem?_iff.mpr
  intro x
  by_cases hx : x < ap.length
  · have hxmem : x ∈ (uniqueScan ap).2.2.flatten :=
      (inv.perm.mem_iff).mpr (List.mem_range.mpr hx)
    obtain ⟨g, hg, hxg⟩ := List.mem_flatten.mp hxmem
    obtain ⟨j, hj⟩ := List.getElem?_of_mem hg
    have hjlt : j < (uniqueScan ap).2.1.length := by
      have := inv.len2
      have := (List.getElem?_eq_some_iff.mp hj).1
      omega
    obtain ⟨k, hk⟩ : ∃ k, (uniqueScan ap).2.1[j]? = some k :=
      ⟨_, List.getElem?_eq_getElem hjlt⟩
    obtain ⟨g', hg', hkg⟩ := inv.idxmem j k hk
    rw [hj] at hg'
    injection hg' with hg'
    subst hg'
    have hv1 : ap[k]? = (uniqueScan ap).1[j]? := inv.value j g hj k hkg
    have hv2 : ap[x]? = (uniqueScan ap).1[j]? := inv.value j g hj x hxg
    have hfx := hmem j g hj x hxg
    have hus : ((uniqueScan ap).2.1.map (fun k => ap.getD k 0))[j]?
        = some (ap.getD k 0) := by
      rw [List.getElem?_map, hk]
      rfl
    have husD : ((uniqueScan ap).2.1.map (fun k => ap.getD k 0)).getD j 0
        = ap.getD k 0 := by
      rw [List.getD_eq_getElem?_getD, hus]
      rfl
    rw [husD] at hfx
    rw [hfx, List.getElem?_map]
    have hapx : ap[x]? = some (ap.getD x 0) := by
      rw [List.getD_eq_getElem?_getD, List.getElem?_eq_getElem hx]
      rfl
    have hapk : ap.getD k 0 = ap.getD x 0 := by
      have : ap[k]? = ap[x]? := hv1.trans hv2.symm
      rw [List.getD_eq_getElem?_getD, List.getD_eq_getElem?_getD, this]
    rw [hapk, hapx]
    rfl
  · have h1 : final[x]? = none := by
      rw [List.getElem?_eq_none]
      rw [hlenf]
      simpa using Nat.le_of_not_lt hx
    have h2 : (ap.map some)[x]? = none := by
      rw [List.getElem?_eq_none]
      simpa using Nat.le_of_not_lt hx
    rw [h1, h2]



theorem uniqueScan_idxs_lt (ap : List Nat) :
    ∀ k ∈ (uniqueScan ap).2.1, k < ap.length := by
  intro k hk
  have inv := uniqueScan_inv ap
  obtain ⟨j, hj⟩ := List.getElem?_of_mem hk
  obtain ⟨g, hg, hkg⟩ := inv.idxmem j k hj
  exact inv.bound g (List.getElem?_mem hg) k hkg

theorem getUniqueParamsIdxs_fresh (gpFn : Unit → List Nat) (c : EMCache)
    (name : String) (ap : List Nat)
    (hfr : (if c.hasCache then c else ⟨true, [], [], []⟩).uIdxs.lookup name = none) :
    getUniqueParamsIdxs gpFn c name (some ap)
      = ((uniqueScan ap).2.1,
         ⟨true,
          (name, (uniqueScan ap).2.1)
            :: (if c.hasCache then c else ⟨true, [], [], []⟩).uIdxs,
          (name, (uniqueScan ap).2.2)
            :: (if c.hasCache then c else ⟨true, [], [], []⟩).uMaps,
          (name, ap.length)
            :: (if c.hasCache then c else ⟨true, [], [], []⟩).nNums⟩, false) := by
  simp only [getUniqueParamsIdxs, hfr]

theorem getUniqueParamsIdxs_hit (gpFn : Unit → List Nat) (c : EMCache)
    (name : String) (ap? : Option (List Nat)) (idxs : List Nat)
    (hc : c.hasCache = true) (hl : c.uIdxs.lookup name = some idxs) :
    getUniqueParamsIdxs gpFn c name ap? = (idxs, c, false) := by
  simp only [getUniqueParamsIdxs, hc, if_true, hl]



theorem useparams_restores {α : Type} (gp : α → String → List Nat)
    (sp : α → String → List (Option Nat) → α) (st : EMSt α) (name : String)
    (params : List Nat) (body : α → α × Option Unit)
    (hconf : ∀ (o : α) (ps : List Nat), ps.length = (gp st.obj name).length →
       gp (sp o name (ps.map some)) name = ps)
    (hfresh : (if st.cache.hasCache then st.cache
        else ⟨true, [], [], []⟩).uIdxs.lookup name = none) :
    ∃ (orig : List Nat) (st1 stF : EMSt α),
      getuniqueparams gp st name = some (orig, st1) ∧
      useparams gp sp st name params body = some stF ∧
      getuniqueparams gp stF name = some (orig, stF) := by
  set ap := gp st.obj name with hap
  set cn := if st.cache.hasCache then st.cache
    else (⟨true, [], [], []⟩ : EMCache) with hcn
  set idxs := (uniqueScan ap).2.1 with hidxs
  set gmap := (uniqueScan ap).2.2 with hgmap
  set orig := idxs.map (fun k => ap.getD k 0) with horig
  set c1 : EMCache := ⟨true, (name, idxs) :: cn.uIdxs,
    (name, gmap) :: cn.uMaps, (name, ap.length) :: cn.nNums⟩ with hc1
  have hcall : getUniqueParamsIdxs (fun _ => ap) st.cache name (some ap)
      = (idxs, c1, false) := getUniqueParamsIdxs_fresh _ _ _ _ hfresh
  have hmapM : idxs.mapM (fun i => ap[i]?) = some orig :=
    mapM_getElem?_of_lt ap idxs (uniqueScan_idxs_lt ap)
  have hget1 : getuniqueparams gp st name = some (orig, ⟨st.obj, c1⟩) := by
    simp only [getuniqueparams, ← hap, hcall, hmapM]
  -- the reconstruction of the snapshot is the original full list
  have hrecon : reconstructFull c1 name orig = some (ap.map some) := by
    simp only [reconstructFull, hc1, List.lookup_cons_self]
    exact reconstruct_inverse ap
  -- reinstalling the snapshot always succeeds and reinstalls `ap`
  have hfin : ∀ (o : α), setuniqueparams sp ⟨o, c1⟩ name orig
      = some ⟨sp o name (ap.map some), c1⟩ := by
    intro o
    simp only [setuniqueparams, hrecon]
  have hlook1 : c1.uIdxs.lookup name = some idxs := by
    simp [hc1]
  have hgetF : ∀ (o : α), getuniqueparams gp ⟨sp o name (ap.map some), c1⟩ name
      = some (orig, ⟨sp o name (ap.map some), c1⟩) := by
    intro o
    have hgpF : gp (sp o name (ap.map some)) name = ap := hconf o ap rfl
    simp only [getuniqueparams, hgpF]
    rw [getUniqueParamsIdxs_hit _ _ _ _ idxs rfl hlook1]
    simp only [hmapM]
  refine ⟨orig, ⟨st.obj, c1⟩, ?_⟩
  rcases hsu : setuniqueparams sp ⟨st.obj, c1⟩ name params with _ | st2
  · refine ⟨⟨sp st.obj name (ap.map some), c1⟩, hget1, ?_, hgetF st.obj⟩
    simp only [useparams, hget1, hsu]
    exact hfin st.obj
  · have hc2 : st2.cache = c1 := by
      simp only [setuniqueparams] at hsu
      rcases hrf : reconstructFull c1 name params with _ | full
      · rw [hrf] at hsu
        exact absurd hsu (by simp)
      · rw [hrf] at hsu
        have := Option.some.inj hsu
        rw [← this]
    have hst2 : ({ st2 with obj := (body st2.obj).1 } : EMSt α)
        = ⟨(body st2.obj).1, c1⟩ := by
      rw [← hc2]
    refine ⟨⟨sp (body st2.obj).1 name (ap.map some), c1⟩, hget1, ?_,
      hgetF (body st2.obj).1⟩
    simp only [useparams, hget1, hsu, hst2]
    exact hfin (body st2.obj).1

/-- C2: for every object with a contract-conforming
`getparams`/`setparams` and a non-empty parameter list, the `useparams`
context restores the original unique parameters on every exit path:
for an arbitrary caller body — whether it completes normally or raises
(the second component of `body`'s result) — the context completes and
a subsequent `getuniqueparams` returns the identity-equal captured
snapshot, reinstalled via `setuniqueparams` of that snapshot. -/
theorem claim_C2_useparams_restores {α : Type} (gp : α → String → List Nat)
    (sp : α → String → List (Option Nat) → α) (st : EMSt α) (name : String)
    (params : List Nat) (body : α → α × Option Unit)
    (hconf : ∀ (o : α) (ps : List Nat), ps.length = (gp st.obj name).length →
       gp (sp o name (ps.map some)) name = ps)
    (hfresh : (if st.cache.hasCache then st.cache
        else ⟨true, [], [], []⟩).uIdxs.lookup name = none)
    (_hne : gp st.obj name ≠ []) :
    ∃ (orig : List Nat) (st1 stF : EMSt α),
      getuniqueparams gp st name = some (orig, st1) ∧
      useparams gp sp st name params body = some stF ∧
      getuniqueparams gp stF name = some (orig, stF) :=
  useparams_restores gp sp st name params body hconf hfresh

/-- Witness for C2: object state is its own parameter list
`[5, 5, 7]` (position 0 and 1 aliased), replacement `[9, 8]`, and a
body that both mutates the object and raises. -/
theorem claim_C2_useparams_restores_witness :
    ∃ (orig : List Nat) (st1 stF : EMSt (List Nat)),
      getuniqueparams (fun o _ => o) ⟨[5, 5, 7], EMCache.empty⟩ "f"
        = some (orig, st1) ∧
      useparams (fun o _ => o) (fun _ _ l => l.map (fun x => x.getD 0))
        ⟨[5, 5, 7], EMCache.empty⟩ "f" [9, 8]
        (fun _ => ([0, 1, 2], some ())) = some stF ∧
      getuniqueparams (fun o _ => o) stF "f" = some (orig, stF) :=
  claim_C2_useparams_restores (fun o _ => o)
    (fun _ _ l => l.map (fun x => x.getD 0)) ⟨[5, 5, 7], EMCache.empty⟩ "f"
    [9, 8] (fun _ => ([0, 1, 2], some ()))
    (fun o ps h => by
      clear h
      induction ps with
      | nil => rfl
      | cons a l ih => simp only [List.map_cons, List.map_nil, ih, Option.getD_some])
    (by rfl) (by decide)

/-- C3: an exception raised by the caller's body inside `useparams` is
swallowed at the context boundary: the context's result is the same as
for a non-raising body with the same state effect, and (under the
conforming contract) the context returns normally — no exception
propagates out of the with-statement. -/
theorem claim_C3_exception_swallowed {α : Type} (gp : α → String → List Nat)
    (sp : α → String → List (Option Nat) → α) (st : EMSt α) (name : String)
    (params : List Nat) (bodyF : α → α)
    (hconf : ∀ (o : α) (ps : List Nat), ps.length = (gp st.obj name).length →
       gp (sp o name (ps.map some)) name = ps)
    (hfresh : (if st.cache.hasCache then st.cache
        else ⟨true, [], [], []⟩).uIdxs.lookup name = none) :
    useparams gp sp st name params (fun o => (bodyF o, some ()))
      = useparams gp sp st name params (fun o => (bodyF o, none)) ∧
    ∃ stF, useparams gp sp st name params (fun o => (bodyF o, some ()))
      = some stF := by
  constructor
  · unfold useparams
    cases getuniqueparams gp st name with
    | none => rfl
    | some r =>
      cases setuniqueparams sp r.2 name params with
      | none => rfl
      | some st2 => rfl
  · obtain ⟨orig, st1, stF, _, huse, _⟩ :=
      useparams_restores gp sp st name params (fun o => (bodyF o, some ()))
        hconf hfresh
    exact ⟨stF, huse⟩

/-- Witness for C3 on the same concrete instance as C2. -/
theorem claim_C3_exception_swallowed_witness :
    useparams (fun (o : List Nat) _ => o) (fun _ _ l => l.map (fun x => x.getD 0))
      ⟨[5, 5, 7], EMCache.empty⟩ "f" [9, 8]
      (fun o => ((0 :: o), some ()))
      = useparams (fun o _ => o) (fun _ _ l => l.map (fun x => x.getD 0))
        ⟨[5, 5, 7], EMCache.empty⟩ "f" [9, 8]
        (fun o => ((0 :: o), none)) ∧
    ∃ stF, useparams (fun (o : List Nat) _ => o)
      (fun _ _ l => l.map (fun x => x.getD 0))
      ⟨[5, 5, 7], EMCache.empty⟩ "f" [9, 8]
      (fun o => ((0 :: o), some ())) = some stF :=
  claim_C3_exception_swallowed (fun o _ => o)
    (fun _ _ l => l.map (fun x => x.getD 0)) ⟨[5, 5, 7], EMCache.empty⟩ "f"
    [9, 8] (fun o => (0 :: o))
    (fun o ps h => by
      clear h
      induction ps with
      | nil => rfl
      | cons a l ih => simp only [List.map_cons, List.map_nil, ih, Option.getD_some])
    (by rfl)

/-! ### The set-pass simulation on alias-free trees -/

theorem dictFields_map_entries : ∀ (ks : OKids) (i : Nat),
    (dictFields ks).map (fun p => (SKey.attr p.1, p.2)) = kidEntries true i ks
  | .nil, i => rfl
  | .cons k t r, i => by
    simp only [dictFields, kidEntries, List.map_cons]
    rw [dictFields_map_entries r (i+1)]
    simp

theorem kidAddrs_enumFrom_entries : ∀ (ks : OKids) (i : Nat),
    ((kidAddrs ks).enumFrom i).map (fun p => (SKey.idx p.1, p.2))
      = kidEntries false i ks
  | .nil, i => rfl
  | .cons k t r, i => by
    simp only [kidAddrs, kidEntries, List.enumFrom, List.map_cons]
    rw [kidAddrs_enumFrom_entries r (i+1)]
    simp

theorem mkNode_entries (isDict : Bool) (ks : OKids) :
    (mkNode isDict ks).entries = some (kidEntries isDict 0 ks) := by
  cases isDict with
  | false =>
    show (Node.iter (kidAddrs ks)).entries = _
    simp only [Node.entries]
    rw [show (kidAddrs ks).enum = (kidAddrs ks).enumFrom 0 from rfl,
      kidAddrs_enumFrom_entries]
  | true =>
    show (Node.dict (dictFields ks)).entries = _
    simp only [Node.entries]
    rw [dictFields_map_entries]

theorem dictFields_appendK : ∀ (a b : OKids),
    dictFields (appendK a b) = dictFields a ++ dictFields b
  | .nil, b => rfl
  | .cons k t r, b => by simp [appendK, dictFields, dictFields_appendK r b]

theorem kidAddrs_appendK : ∀ (a b : OKids),
    kidAddrs (appendK a b) = kidAddrs a ++ kidAddrs b
  | .nil, b => rfl
  | .cons k t r, b => by simp [appendK, kidAddrs, kidAddrs_appendK r b]

theorem dictKeys_appendK : ∀ (a b : OKids),
    dictKeys (appendK a b) = dictKeys a ++ dictKeys b
  | .nil, b => rfl
  | .cons k t r, b => by simp [appendK, dictKeys, dictKeys_appendK r b]

theorem appendK_nil : ∀ (a : OKids), appendK a .nil = a
  | .nil => rfl
  | .cons k t r => by simp [appendK, appendK_nil r]

theorem appendK_cons : ∀ (a : OKids) (k : String) (t : OTree) (b : OKids),
    appendK a (.cons k t b) = appendK (appendK a (.cons k t .nil)) b
  | .nil, k, t, b => rfl
  | .cons k' t' r, k, t, b => by simp [appendK, appendK_cons r k t b]

theorem appendK_size : ∀ (a b : OKids), (appendK a b).size = a.size + b.size
  | .nil, b => by simp [appendK, OKids.size]
  | .cons k t r, b => by
    simp [appendK, OKids.size, appendK_size r b]
    omega

theorem kidAddrs_length : ∀ (ks : OKids), (kidAddrs ks).length = ks.size
  | .nil => rfl
  | .cons k t r => by simp [kidAddrs, OKids.size, kidAddrs_length r]; omega

mutual
theorem realizes_congr : ∀ (t : OTree) (h1 h2 : Heap),
    (∀ x ∈ t.addr :: visitOrder t, h1 x = h2 x) →
    realizes h1 t = realizes h2 t
  | .tens a dt, h1, h2, hag => by
    simp [realizes, hag a (by simp [OTree.addr])]
  | .odict a kids, h1, h2, hag => by
    have h1a := hag a (by simp [OTree.addr])
    have hk := realizesK_congr kids h1 h2 (fun x hx => hag x (by
      simp only [visitOrder, OTree.addr]
      exact List.mem_cons.mpr (Or.inr hx)))
    simp [realizes, h1a, hk]
  | .oiter a kids, h1, h2, hag => by
    have h1a := hag a (by simp [OTree.addr])
    have hk := realizesK_congr kids h1 h2 (fun x hx => hag x (by
      simp only [visitOrder, OTree.addr]
      exact List.mem_cons.mpr (Or.inr hx)))
    simp [realizes, h1a, hk]
  | .oatom a, h1, h2, hag => by
    simp [realizes, hag a (by simp [OTree.addr])]
theorem realizesK_congr : ∀ (ks : OKids) (h1 h2 : Heap),
    (∀ x ∈ visitOrderK ks, h1 x = h2 x) →
    realizesK h1 ks = realizesK h2 ks
  | .nil, h1, h2, hag => by simp [realizesK]
  | .cons k t r, h1, h2, hag => by
    have ht := realizes_congr t h1 h2 (fun x hx => hag x (by
      simp only [visitOrderK]
      exact List.mem_append.mpr (Or.inl hx)))
    have hr := realizesK_congr r h1 h2 (fun x hx => hag x (by
      simp only [visitOrderK]
      exact List.mem_append.mpr (Or.inr hx)))
    simp [realizesK, ht, hr]
end



theorem heightK_eq_zero : ∀ (ks : OKids), heightK ks = 0 → ks = .nil
  | .nil, _ => rfl
  | .cons k t r, h => by
    simp [heightK] at h

mutual
theorem getT_run : ∀ (t : OTree) (fuel : Nat) (pfx : String)
    (st : TState (List Nat × List String)),
    realizes st.heap t = true → recursable t = true → height t ≤ fuel →
    (t.addr :: visitOrder t).Nodup → (∀ x ∈ visitOrder t, x ∉ st.visited) →
    ∃ nms, traverseObj getAction fuel t.addr pfx st
      = (⟨st.heap, st.visited ++ visitOrder t,
          (st.acc.1 ++ kidTens t, st.acc.2 ++ nms)⟩, none)
  | .tens a dt, fuel, pfx, st, hreal, hrec, hh, hnd, hvis => by
    have ha : st.heap a = .tensor dt := by
      simpa [realizes] using hreal
    have hfl : dt.isFloat = false := by
      simpa [recursable, Bool.not_eq_true'] using hrec
    refine ⟨[], ?_⟩
    cases fuel <;>
      simp [traverseObj, traverseStep, OTree.addr, ha, Node.entries,
        traverseList, visitOrder, kidTens, hfl]
  | .odict a kids, fuel, pfx, st, hreal, hrec, hh, hnd, hvis => by
    have ha : st.heap a = .dict (dictFields kids) := by
      simp [realizes] at hreal
      exact hreal.1
    have hk : realizesK st.heap kids = true := by
      simp [realizes] at hreal
      exact hreal.2
    have hent : (st.heap a).entries = some (kidEntries true 0 kids) := by
      rw [ha]
      exact mkNode_entries true kids
    cases fuel with
    | zero =>
      have hnil : kids = OKids.nil := heightK_eq_zero kids (by
        simpa [height] using hh)
      subst hnil
      refine ⟨[], ?_⟩
      simp [traverseObj, traverseStep, OTree.addr, hent, kidEntries,
        traverseList, visitOrder, visitOrderK, kidTens, tensK]
    | succ f =>
      obtain ⟨nms, hrun⟩ := getK_run kids f true 0 a pfx st hk
        (by simpa [height] using hh)
        (by simpa [visitOrder] using (List.nodup_cons.mp hnd).2)
        (by intro x hx; exact hvis x (by simpa [visitOrder] using hx))
      refine ⟨nms, ?_⟩
      simp only [traverseObj, traverseStep, OTree.addr]
      rw [hent]
      show traverseList getAction (fun a p s => traverseObj getAction f a p s)
        a pfx (kidEntries true 0 kids) st = _
      rw [hrun]
      simp [visitOrder, kidTens]
  | .oiter a kids, fuel, pfx, st, hreal, hrec, hh, hnd, hvis => by
    have ha : st.heap a = .iter (kidAddrs kids) := by
      simp [realizes] at hreal
      exact hreal.1
    have hk : realizesK st.heap kids = true := by
      simp [realizes] at hreal
      exact hreal.2
    have hent : (st.heap a).entries = some (kidEntries false 0 kids) := by
      rw [ha]
      exact mkNode_entries false kids
    cases fuel with
    | zero =>
      have hnil : kids = OKids.nil := heightK_eq_zero kids (by
        simpa [height] using hh)
      subst hnil
      refine ⟨[], ?_⟩
      simp [traverseObj, traverseStep, OTree.addr, hent, kidEntries,
        traverseList, visitOrder, visitOrderK, kidTens, tensK]
    | succ f =>
      obtain ⟨nms, hrun⟩ := getK_run kids f false 0 a pfx st hk
        (by simpa [height] using hh)
        (by simpa [visitOrder] using (List.nodup_cons.mp hnd).2)
        (by intro x hx; exact hvis x (by simpa [visitOrder] using hx))
      refine ⟨nms, ?_⟩
      simp only [traverseObj, traverseStep, OTree.addr]
      rw [hent]
      show traverseList getAction (fun a p s => traverseObj getAction f a p s)
        a pfx (kidEntries false 0 kids) st = _
      rw [hrun]
      simp [visitOrder, kidTens]
  | .oatom a, fuel, pfx, st, hreal, hrec, hh, hnd, hvis => by
    simp [recursable] at hrec
theorem getK_run : ∀ (ks : OKids) (fuel : Nat) (isDict : Bool) (i : Nat)
    (owner : Nat) (pfx : String) (st : TState (List Nat × List String)),
    realizesK st.heap ks = true → heightK ks ≤ fuel + 1 →
    (visitOrderK ks).Nodup → (∀ x ∈ visitOrderK ks, x ∉ st.visited) →
    ∃ nms, traverseList getAction (fun a p s => traverseObj getAction fuel a p s)
        owner pfx (kidEntries isDict i ks) st
      = (⟨st.heap, st.visited ++ visitOrderK ks,
          (st.acc.1 ++ tensK ks, st.acc.2 ++ nms)⟩, none)
  | .nil, fuel, isDict, i, owner, pfx, st, hreal, hh, hnd, hvis => by
    refine ⟨[], ?_⟩
    simp [kidEntries, traverseList, visitOrderK, tensK]
  | .cons k t r, fuel, isDict, i, owner, pfx, st, hreal, hh, hnd, hvis => by
    have hrt : realizes st.heap t = true := by
      simp [realizesK] at hreal
      exact hreal.1
    have hrr : realizesK st.heap r = true := by
      simp [realizesK] at hreal
      exact hreal.2
    have hnotin : t.addr ∉ st.visited :=
      hvis t.addr (by simp [visitOrderK])
    have hnd' : ((t.addr :: visitOrder t) ++ visitOrderK r).Nodup := by
      simpa only [visitOrderK] using hnd
    have hndP := List.nodup_append.mp hnd'
    have hndT : (t.addr :: visitOrder t).Nodup := hndP.1
    have hndR : (visitOrderK r).Nodup := hndP.2.1
    have hdisj : ∀ x ∈ t.addr :: visitOrder t, x ∉ visitOrderK r := by
      intro x hx
      exact hndP.2.2 hx
    have hhr : heightK r ≤ fuel + 1 := by
      simp [heightK] at hh
      omega
    have hht : height t ≤ fuel := by
      simp [heightK] at hh
      omega
    have hvisR : ∀ x ∈ visitOrderK r, x ∉ st.visited := by
      intro x hx
      exact hvis x (by
        simp only [visitOrderK]
        exact List.mem_append.mpr (Or.inr hx))
    have hvisT : ∀ x ∈ t.addr :: visitOrder t, x ∉ st.visited := by
      intro x hx
      exact hvis x (by
        simp only [visitOrderK]
        exact List.mem_append.mpr (Or.inl hx))
    have hkid : kidEntries isDict i (.cons k t r)
        = (if isDict then SKey.attr k else SKey.idx i, t.addr)
          :: kidEntries isDict (i+1) r := rfl
    by_cases hR : recursable t = true
    · -- the loop recurses into this child
      have hcrit : critFloatTensor (st.heap t.addr) = false := by
        cases t with
        | tens a dt =>
          have ha : st.heap a = .tensor dt := by simpa [realizes] using hrt
          have : dt.isFloat = false := by
            simpa [recursable, Bool.not_eq_true'] using hR
          simp [OTree.addr, ha, critFloatTensor, this]
        | odict a2 kids2 =>
          have ha : st.heap a2 = .dict (dictFields kids2) := by
            simp [realizes] at hrt
            exact hrt.1
          simp [OTree.addr, ha, critFloatTensor]
        | oiter a2 kids2 =>
          have ha : st.heap a2 = .iter (kidAddrs kids2) := by
            simp [realizes] at hrt
            exact hrt.1
          simp [OTree.addr, ha, critFloatTensor]
        | oatom a => simp [recursable] at hR
      have hsome : ((st.heap t.addr).entries).isSome = true := by
        cases t with
        | tens a dt =>
          have ha : st.heap a = .tensor dt := by simpa [realizes] using hrt
          simp [OTree.addr, ha, Node.entries]
        | odict a2 kids2 =>
          have ha : st.heap a2 = .dict (dictFields kids2) := by
            simp [realizes] at hrt
            exact hrt.1
          simp [OTree.addr, ha, Node.entries]
        | oiter a2 kids2 =>
          have ha : st.heap a2 = .iter (kidAddrs kids2) := by
            simp [realizes] at hrt
            exact hrt.1
          simp [OTree.addr, ha, Node.entries]
        | oatom a => simp [recursable] at hR
      obtain ⟨nmsT, hrunT⟩ := getT_run t fuel
        (fmtName pfx (if isDict then SKey.attr k else SKey.idx i))
        ⟨st.heap, st.visited ++ [t.addr], st.acc⟩ hrt hR hht hndT
        (by
          intro x hx
          intro hmem
          rcases List.mem_append.mp hmem with hm | hm
          · exact hvisT x (List.mem_cons_of_mem _ hx) hm
          · simp at hm
            subst hm
            exact (List.nodup_cons.mp hndT).1 hx)
      obtain ⟨nmsR, hrunR⟩ := getK_run r fuel isDict (i+1) owner pfx
        ⟨st.heap, (st.visited ++ [t.addr]) ++ visitOrder t,
         (st.acc.1 ++ kidTens t, st.acc.2 ++ nmsT)⟩ hrr hhr hndR
        (by
          intro x hx
          intro hmem
          rcases List.mem_append.mp hmem with hm | hm
          · rcases List.mem_append.mp hm with hm2 | hm2
            · exact hvisR x hx hm2
            · simp at hm2
              subst hm2
              exact hdisj t.addr (List.mem_cons_self _ _) hx
          · exact hdisj x (List.mem_cons_of_mem _ hm) hx)
      refine ⟨nmsT ++ nmsR, ?_⟩
      rw [hkid]
      simp only [traverseList, List.elem_eq_mem, hnotin, decide_False,
        Bool.false_eq_true, if_false, hcrit, hsome, if_true]
      simp only at hrunT
      rw [hrunT]
      show traverseList getAction (fun a p s => traverseObj getAction fuel a p s)
        owner pfx (kidEntries isDict (i+1) r) _ = _
      rw [hrunR]
      simp [visitOrderK, tensK, List.append_assoc]
    · -- not recursed into: a float tensor (collected) or an atom (skipped)
      cases t with
      | tens a dt =>
        have ha : st.heap a = .tensor dt := by simpa [realizes] using hrt
        have hfl : dt.isFloat = true := by
          simpa [recursable] using hR
        have hcrit : critFloatTensor (st.heap a) = true := by
          simp [ha, critFloatTensor, hfl]
        obtain ⟨nmsR, hrunR⟩ := getK_run r fuel isDict (i+1) owner pfx
          ⟨st.heap, st.visited ++ [a],
           (st.acc.1 ++ [a],
            st.acc.2 ++ [fmtName pfx (if isDict then SKey.attr k else SKey.idx i)])⟩
          hrr hhr hndR
          (by
            intro x hx
            intro hmem
            rcases List.mem_append.mp hmem with hm | hm
            · exact hvisR x hx hm
            · simp at hm
              subst hm
              exact hdisj _ (List.mem_cons_self _ _) hx)
        refine ⟨fmtName pfx (if isDict then SKey.attr k else SKey.idx i) :: nmsR, ?_⟩
        rw [hkid]
        simp only [OTree.addr] at hnotin
        simp only [traverseList, List.elem_eq_mem, hnotin, decide_False,
          Bool.false_eq_true, if_false, OTree.addr, hcrit, if_true, getAction]
        show traverseList getAction (fun a p s => traverseObj getAction fuel a p s)
          owner pfx (kidEntries isDict (i+1) r) _ = _
        rw [hrunR]
        simp [visitOrderK, tensK, kidTens, visitOrder, OTree.addr, hfl,
          List.append_assoc]
      | odict a2 kids2 => simp [recursable] at hR
      | oiter a2 kids2 => simp [recursable] at hR
      | oatom a =>
        have ha : st.heap a = .atom := by simpa [realizes] using hrt
        have hcrit : critFloatTensor (st.heap a) = false := by
          simp [ha, critFloatTensor]
        have hnone : ((st.heap a).entries).isSome = false := by
          simp [ha, Node.entries]
        obtain ⟨nmsR, hrunR⟩ := getK_run r fuel isDict (i+1) owner pfx
          ⟨st.heap, st.visited ++ [a], st.acc⟩ hrr hhr hndR
          (by
            intro x hx
            intro hmem
            rcases List.mem_append.mp hmem with hm | hm
            · exact hvisR x hx hm
            · simp at hm
              subst hm
              exact hdisj _ (List.mem_cons_self _ _) hx)
        refine ⟨nmsR, ?_⟩
        rw [hkid]
        simp only [OTree.addr] at hnotin
        simp only [traverseList, List.elem_eq_mem, hnotin, decide_False,
          Bool.false_eq_true, if_false, OTree.addr, hcrit, hnone]
        show traverseList getAction (fun a p s => traverseObj getAction fuel a p s)
          owner pfx (kidEntries isDict (i+1) r) _ = _
        rw [hrunR]
        simp [visitOrderK, tensK, kidTens, visitOrder, OTree.addr,
          List.append_assoc]
end



theorem map_noKey : ∀ (F : List (String × Nat)) (k : String) (q : Nat),
    k ∉ F.map Prod.fst →
    F.map (fun p => if p.1 = k then (p.1, q) else p) = F
  | [], k, q, _ => rfl
  | (k1, a1) :: F, k, q, h => by
    simp only [List.map_cons, List.mem_cons, not_or] at h
    have hk1 : ¬ k1 = k := fun he => h.1 he.symm
    simp only [List.map_cons, if_neg hk1]
    rw [map_noKey F k q h.2]

theorem map_replaceKey : ∀ (F1 F2 : List (String × Nat)) (k : String) (old q : Nat),
    k ∉ F1.map Prod.fst → k ∉ F2.map Prod.fst →
    (F1 ++ (k, old) :: F2).map (fun p => if p.1 = k then (p.1, q) else p)
      = F1 ++ (k, q) :: F2
  | [], F2, k, old, q, _, h2 => by
    simp only [List.nil_append, List.map_cons, if_pos rfl]
    rw [map_noKey F2 k q h2]
    simp
  | (k1, a1) :: F1, F2, k, old, q, h1, h2 => by
    simp only [List.map_cons, List.mem_cons, not_or] at h1
    have hk1 : ¬ k1 = k := fun he => h1.1 he.symm
    simp only [List.cons_append, List.map_cons, if_neg hk1]
    rw [map_replaceKey F1 F2 k old q h1.2 h2]

theorem set_append_len : ∀ (L1 : List Nat) (old q : Nat) (L2 : List Nat),
    (L1 ++ old :: L2).set L1.length q = L1 ++ q :: L2
  | [], old, q, L2 => rfl
  | x :: L1, old, q, L2 => by
    simp only [List.cons_append, List.length_cons, List.set_cons_succ]
    rw [set_append_len L1 old q L2]

mutual
theorem substT_snd : ∀ (t : OTree) (ps : List (Nat × Dtype)),
    (substT t ps).2 = ps.drop (kidTens t).length
  | .tens a dt, ps => by
    cases hfl : dt.isFloat with
    | true =>
      cases ps with
      | nil => simp [substT, hfl, kidTens]
      | cons q qs => simp [substT, hfl, kidTens]
    | false => simp [substT, hfl, kidTens]
  | .odict a kids, ps => by
    simp only [substT, kidTens]
    exact substK_snd kids ps
  | .oiter a kids, ps => by
    simp only [substT, kidTens]
    exact substK_snd kids ps
  | .oatom a, ps => by simp [substT, kidTens]
theorem substK_snd : ∀ (ks : OKids) (ps : List (Nat × Dtype)),
    (substK ks ps).2 = ps.drop (tensK ks).length
  | .nil, ps => by simp [substK, tensK]
  | .cons k t r, ps => by
    simp only [substK, tensK]
    rw [substK_snd r (substT t ps).2, substT_snd t ps]
    simp [List.drop_drop, Nat.add_comm]
end

theorem recursable_addr : ∀ (t : OTree) (ps : List (Nat × Dtype)),
    recursable t = true → (substT t ps).1.addr = t.addr
  | .tens a dt, ps, h => by
    have : dt.isFloat = false := by simpa [recursable, Bool.not_eq_true'] using h
    simp [substT, this, OTree.addr]
  | .odict a kids, ps, _ => by simp [substT, OTree.addr]
  | .oiter a kids, ps, _ => by simp [substT, OTree.addr]
  | .oatom a, ps, h => by simp [recursable] at h

mutual
theorem substT_height : ∀ (t : OTree) (ps : List (Nat × Dtype)),
    height (substT t ps).1 = height t
  | .tens a dt, ps => by
    cases hfl : dt.isFloat with
    | true =>
      cases ps with
      | nil => simp [substT, hfl]
      | cons q qs => simp [substT, hfl, height]
    | false => simp [substT, hfl]
  | .odict a kids, ps => by
    simp only [substT, height]
    exact substK_height kids ps
  | .oiter a kids, ps => by
    simp only [substT, height]
    exact substK_height kids ps
  | .oatom a, ps => by simp [substT]
theorem substK_height : ∀ (ks : OKids) (ps : List (Nat × Dtype)),
    heightK (substK ks ps).1 = heightK ks
  | .nil, ps => by simp [substK]
  | .cons k t r, ps => by
    simp only [substK, heightK]
    rw [substT_height t ps, substK_height r (substT t ps).2]
end

theorem substK_keys : ∀ (ks : OKids) (ps : List (Nat × Dtype)),
    dictKeys (substK ks ps).1 = dictKeys ks
  | .nil, ps => rfl
  | .cons k t r, ps => by
    simp only [substK, dictKeys]
    rw [substK_keys r (substT t ps).2]



mutual
theorem kidTens_subst : ∀ (t : OTree) (ps : List (Nat × Dtype)),
    (kidTens t).length ≤ ps.length → (∀ q ∈ ps, q.2.isFloat = true) →
    kidTens (substT t ps).1 = (ps.take (kidTens t).length).map Prod.fst
  | .tens a dt, ps, hlen, hfl => by
    cases hf : dt.isFloat with
    | true =>
      cases ps with
      | nil => simp [kidTens, hf] at hlen
      | cons q qs =>
        have := hfl q (by simp)
        simp [substT, hf, kidTens, this]
    | false => simp [substT, hf, kidTens]
  | .odict a kids, ps, hlen, hfl => by
    simp only [substT, kidTens] at hlen ⊢
    exact tensK_subst kids ps hlen hfl
  | .oiter a kids, ps, hlen, hfl => by
    simp only [substT, kidTens] at hlen ⊢
    exact tensK_subst kids ps hlen hfl
  | .oatom a, ps, hlen, hfl => by simp [substT, kidTens]
theorem tensK_subst : ∀ (ks : OKids) (ps : List (Nat × Dtype)),
    (tensK ks).length ≤ ps.length → (∀ q ∈ ps, q.2.isFloat = true) →
    tensK (substK ks ps).1 = (ps.take (tensK ks).length).map Prod.fst
  | .nil, ps, _, _ => by simp [substK, tensK]
  | .cons k t r, ps, hlen, hfl => by
    simp only [substK, tensK, List.length_append] at hlen ⊢
    have hlt : (kidTens t).length ≤ ps.length := by omega
    rw [kidTens_subst t ps hlt hfl]
    rw [substT_snd t ps]
    have hlr : (tensK r).length ≤ (ps.drop (kidTens t).length).length := by
      simp
      omega
    rw [tensK_subst r _ hlr (fun q hq => hfl q (List.mem_of_mem_drop hq))]
    rw [← List.map_append, ← List.take_add]
end



mutual
theorem contAddrs_subset : ∀ (t : OTree), ∀ x ∈ contAddrs t,
    x ∈ t.addr :: visitOrder t
  | .tens a dt, x, hx => by simp [contAddrs] at hx
  | .odict a kids, x, hx => by
    simp only [contAddrs, List.mem_cons] at hx
    rcases hx with rfl | hx
    · simp [OTree.addr]
    · simp only [OTree.addr, visitOrder, List.mem_cons]
      exact Or.inr (contAddrsK_subset kids x hx)
  | .oiter a kids, x, hx => by
    simp only [contAddrs, List.mem_cons] at hx
    rcases hx with rfl | hx
    · simp [OTree.addr]
    · simp only [OTree.addr, visitOrder, List.mem_cons]
      exact Or.inr (contAddrsK_subset kids x hx)
  | .oatom a, x, hx => by simp [contAddrs] at hx
theorem contAddrsK_subset : ∀ (ks : OKids), ∀ x ∈ contAddrsK ks,
    x ∈ visitOrderK ks
  | .nil, x, hx => by simp [contAddrsK] at hx
  | .cons k t r, x, hx => by
    simp only [contAddrsK, List.mem_append] at hx
    simp only [visitOrderK, List.mem_append]
    rcases hx with hx | hx
    · exact Or.inl (contAddrs_subset t x hx)
    · exact Or.inr (contAddrsK_subset r x hx)
end

mutual
theorem substT_visit_mem : ∀ (t : OTree) (ps : List (Nat × Dtype)),
    ∀ x ∈ (substT t ps).1.addr :: visitOrder (substT t ps).1,
      x ∈ t.addr :: visitOrder t ∨
      x ∈ (ps.take (kidTens t).length).map Prod.fst
  | .tens a dt, ps, x, hx => by
    cases hf : dt.isFloat with
    | true =>
      cases ps with
      | nil =>
        left
        simpa [substT, hf, OTree.addr, visitOrder] using hx
      | cons q qs =>
        simp [substT, hf, visitOrder, OTree.addr] at hx
        subst hx
        right
        simp [kidTens, hf]
    | false =>
      simp [substT, hf, visitOrder, OTree.addr] at hx
      simp [hx, OTree.addr]
  | .odict a kids, ps, x, hx => by
    simp only [substT, OTree.addr, visitOrder, List.mem_cons] at hx
    rcases hx with rfl | hx
    · exact Or.inl (by simp [OTree.addr])
    · rcases substK_visit_mem kids ps x hx with h | h
      · exact Or.inl (by
          simp only [OTree.addr, visitOrder, List.mem_cons]
          exact Or.inr h)
      · exact Or.inr (by simpa [kidTens] using h)
  | .oiter a kids, ps, x, hx => by
    simp only [substT, OTree.addr, visitOrder, List.mem_cons] at hx
    rcases hx with rfl | hx
    · exact Or.inl (by simp [OTree.addr])
    · rcases substK_visit_mem kids ps x hx with h | h
      · exact Or.inl (by
          simp only [OTree.addr, visitOrder, List.mem_cons]
          exact Or.inr h)
      · exact Or.inr (by simpa [kidTens] using h)
  | .oatom a, ps, x, hx => by
    simp [substT, visitOrder, OTree.addr] at hx
    simp [hx, OTree.addr]
theorem substK_visit_mem : ∀ (ks : OKids) (ps : List (Nat × Dtype)),
    ∀ x ∈ visitOrderK (substK ks ps).1,
      x ∈ visitOrderK ks ∨ x ∈ (ps.take (tensK ks).length).map Prod.fst
  | .nil, ps, x, hx => by simp [substK, visitOrderK] at hx
  | .cons k t r, ps, x, hx => by
    simp only [substK, visitOrderK, List.mem_append] at hx
    simp only [visitOrderK, List.mem_append, tensK]
    rcases hx with hx | hx
    · rcases substT_visit_mem t ps x hx with h | h
      · exact Or.inl (Or.inl h)
      · right
        rw [List.length_append, List.take_add, List.map_append]
        exact List.mem_append.mpr (Or.inl h)
    · rcases substK_visit_mem r (substT t ps).2 x hx with h | h
      · exact Or.inl (Or.inr h)
      · right
        rw [substT_snd t ps] at h
        rw [List.length_append, List.take_add, List.map_append]
        exact List.mem_append.mpr (Or.inr h)
end



theorem mem_map_fst_take {ps : List (Nat × Dtype)} {n : Nat} {x : Nat}
    (h : x ∈ (ps.take n).map Prod.fst) : x ∈ ps.map Prod.fst := by
  rcases List.mem_map.mp h with ⟨q, hq, rfl⟩
  exact List.mem_map.mpr ⟨q, List.take_subset n ps hq, rfl⟩

theorem mem_map_fst_drop {ps : List (Nat × Dtype)} {n : Nat} {x : Nat}
    (h : x ∈ (ps.drop n).map Prod.fst) : x ∈ ps.map Prod.fst := by
  rcases List.mem_map.mp h with ⟨q, hq, rfl⟩
  exact List.mem_map.mpr ⟨q, List.drop_subset n ps hq, rfl⟩

theorem take_drop_fst_disjoint {ps : List (Nat × Dtype)} {n : Nat}
    (hnd : (ps.map Prod.fst).Nodup) :
    ∀ x ∈ (ps.take n).map Prod.fst, x ∉ (ps.drop n).map Prod.fst := by
  have hsplit : ps.map Prod.fst
      = (ps.take n).map Prod.fst ++ (ps.drop n).map Prod.fst := by
    rw [← List.map_append, List.take_append_drop]
  rw [hsplit] at hnd
  exact (List.nodup_append.mp hnd).2.2

mutual
theorem substT_visit_nodup : ∀ (t : OTree) (ps : List (Nat × Dtype)),
    (t.addr :: visitOrder t).Nodup → (ps.map Prod.fst).Nodup →
    (∀ q ∈ ps, q.1 ∉ t.addr :: visitOrder t) →
    ((substT t ps).1.addr :: visitOrder (substT t ps).1).Nodup
  | .tens a dt, ps, hnd, hps, hfr => by
    cases hf : dt.isFloat with
    | true =>
      cases ps with
      | nil => simp [substT, hf, visitOrder]
      | cons q qs => simp [substT, hf, visitOrder]
    | false => simp [substT, hf, visitOrder]
  | .odict a kids, ps, hnd, hps, hfr => by
    simp only [substT, OTree.addr, visitOrder, List.nodup_cons]
    constructor
    · intro hmem
      rcases substK_visit_mem kids ps a hmem with h | h
      · exact (List.nodup_cons.mp (by simpa [OTree.addr, visitOrder] using hnd)).1 h
      · rcases List.mem_map.mp (mem_map_fst_take h) with ⟨q, hq, hqa⟩
        exact hfr q hq (by simp [OTree.addr, hqa])
    · exact substK_visit_nodup kids ps
        (by simpa [OTree.addr, visitOrder] using
          (List.nodup_cons.mp (by simpa [OTree.addr, visitOrder] using hnd)).2)
        hps
        (fun q hq hmem => hfr q hq (by
          simp only [OTree.addr, visitOrder, List.mem_cons]
          exact Or.inr hmem))
  | .oiter a kids, ps, hnd, hps, hfr => by
    simp only [substT, OTree.addr, visitOrder, List.nodup_cons]
    constructor
    · intro hmem
      rcases substK_visit_mem kids ps a hmem with h | h
      · exact (List.nodup_cons.mp (by simpa [OTree.addr, visitOrder] using hnd)).1 h
      · rcases List.mem_map.mp (mem_map_fst_take h) with ⟨q, hq, hqa⟩
        exact hfr q hq (by simp [OTree.addr, hqa])
    · exact substK_visit_nodup kids ps
        (by simpa [OTree.addr, visitOrder] using
          (List.nodup_cons.mp (by simpa [OTree.addr, visitOrder] using hnd)).2)
        hps
        (fun q hq hmem => hfr q hq (by
          simp only [OTree.addr, visitOrder, List.mem_cons]
          exact Or.inr hmem))
  | .oatom a, ps, hnd, hps, hfr => by simp [substT, visitOrder]
theorem substK_visit_nodup : ∀ (ks : OKids) (ps : List (Nat × Dtype)),
    (visitOrderK ks).Nodup → (ps.map Prod.fst).Nodup →
    (∀ q ∈ ps, q.1 ∉ visitOrderK ks) →
    (visitOrderK (substK ks ps).1).Nodup
  | .nil, ps, _, _, _ => by simp [substK, visitOrderK]
  | .cons k t r, ps, hnd, hps, hfr => by
    have hnd' : ((t.addr :: visitOrder t) ++ visitOrderK r).Nodup := by
      simpa only [visitOrderK] using hnd
    have hndP := List.nodup_append.mp hnd'
    have hfrT : ∀ q ∈ ps, q.1 ∉ t.addr :: visitOrder t := by
      intro q hq hmem
      exact hfr q hq (by
        simp only [visitOrderK, List.mem_append]
        exact Or.inl hmem)
    have hfrR : ∀ q ∈ (substT t ps).2, q.1 ∉ visitOrderK r := by
      intro q hq hmem
      rw [substT_snd t ps] at hq
      exact hfr q (List.drop_subset _ ps hq) (by
        simp only [visitOrderK, List.mem_append]
        exact Or.inr hmem)
    have hpsR : ((substT t ps).2.map Prod.fst).Nodup := by
      rw [substT_snd t ps, List.map_drop]
      exact hps.sublist (List.drop_sublist _ _)
    simp only [substK, visitOrderK]
    rw [List.nodup_append]
    refine ⟨substT_visit_nodup t ps hndP.1 hps hfrT,
      substK_visit_nodup r (substT t ps).2 hndP.2.1 hpsR hfrR, ?_⟩
    intro x hx1 hx2
    rcases substT_visit_mem t ps x hx1 with h1 | h1 <;>
      rcases substK_visit_mem r (substT t ps).2 x hx2 with h2 | h2
    · exact hndP.2.2 h1 h2
    · rw [substT_snd t ps] at h2
      rcases List.mem_map.mp (mem_map_fst_take h2) with ⟨q, hq, rfl⟩
      exact hfrT q (List.drop_subset _ ps hq) h1
    · rcases List.mem_map.mp h1 with ⟨q, hq, rfl⟩
      exact hfr q (List.take_subset _ ps hq) (by
        simp only [visitOrderK, List.mem_append]
        exact Or.inr h2)
    · rw [substT_snd t ps] at h2
      exact take_drop_fst_disjoint hps x h1 (mem_map_fst_take h2)
end



theorem dictFields_fst : ∀ (ks : OKids),
    (dictFields ks).map Prod.fst = dictKeys ks
  | .nil => rfl
  | .cons k t r => by simp [dictFields, dictKeys, dictFields_fst r]

theorem strNodup_nodup : ∀ (l : List String), strNodup l = true → l.Nodup
  | [], _ => List.nodup_nil
  | s :: rest, h => by
    simp [strNodup] at h
    exact List.nodup_cons.mpr ⟨h.1, strNodup_nodup rest h.2⟩

theorem mkNode_mid_addr (isDict : Bool) (done r : OKids) (k : String)
    (t t' : OTree) (haddr : t'.addr = t.addr) :
    mkNode isDict (appendK done (.cons k t r))
      = mkNode isDict (appendK (appendK done (.cons k t' .nil)) r) := by
  cases isDict <;>
    simp [mkNode, dictFields_appendK, kidAddrs_appendK, dictFields, kidAddrs,
      appendK, haddr]

theorem setSlot_dict_mid (done r : OKids) (k : String) (t : OTree) (p : Nat)
    (hnd : (dictKeys (appendK done (.cons k t r))).Nodup) :
    setSlot (mkNode true (appendK done (.cons k t r))) (.attr k) p
      = .dict (dictFields done ++ (k, p) :: dictFields r) := by
  have hkeys : (dictKeys done ++ k :: dictKeys r).Nodup := by
    simpa [dictKeys_appendK, dictKeys] using hnd
  have h1 : k ∉ (dictFields done).map Prod.fst := by
    rw [dictFields_fst]
    intro hm
    exact (List.nodup_append.mp hkeys).2.2 hm (by simp)
  have h2 : k ∉ (dictFields r).map Prod.fst := by
    rw [dictFields_fst]
    exact (List.nodup_cons.mp (List.nodup_append.mp hkeys).2.1).1
  show setSlot (.dict (dictFields (appendK done (.cons k t r)))) (.attr k) p = _
  rw [dictFields_appendK]
  simp only [setSlot, dictFields]
  rw [map_replaceKey (dictFields done) (dictFields r) k t.addr p h1 h2]

theorem setSlot_iter_mid (done r : OKids) (k : String) (t : OTree) (p : Nat) :
    setSlot (mkNode false (appendK done (.cons k t r))) (.idx done.size) p
      = .iter (kidAddrs done ++ p :: kidAddrs r) := by
  show setSlot (.iter (kidAddrs (appendK done (.cons k t r)))) (.idx done.size) p = _
  rw [kidAddrs_appendK]
  simp only [setSlot, kidAddrs]
  rw [← kidAddrs_length done]
  rw [set_append_len (kidAddrs done) t.addr p (kidAddrs r)]

theorem mkNode_snoc_fields (isDict : Bool) (done r : OKids) (k : String)
    (p : Nat) (dtp : Dtype) :
    mkNode isDict (appendK (appendK done (.cons k (.tens p dtp) .nil)) r)
      = (if isDict then Node.dict (dictFields done ++ (k, p) :: dictFields r)
         else Node.iter (kidAddrs done ++ p :: kidAddrs r)) := by
  cases isDict <;>
    simp [mkNode, dictFields_appendK, kidAddrs_appendK, dictFields, kidAddrs,
      appendK, OTree.addr]

mutual
theorem setT_run : ∀ (t : OTree) (fuel : Nat) (pfx : String)
    (ps : List (Nat × Dtype)) (st : TState (List Nat)),
    realizes st.heap t = true → recursable t = true → wfT t = true →
    height t ≤ fuel →
    (t.addr :: visitOrder t).Nodup →
    (∀ x ∈ visitOrder t, x ∉ st.visited) →
    st.acc = ps.map Prod.fst →
    (kidTens t).length ≤ ps.length →
    (∀ q ∈ ps, st.heap q.1 = .tensor q.2 ∧ q.2.isFloat = true) →
    (∀ q ∈ ps, q.1 ∉ t.addr :: visitOrder t) →
    ∃ h', traverseObj setAction fuel t.addr pfx st
      = (⟨h', st.visited ++ visitOrder t,
          (ps.drop (kidTens t).length).map Prod.fst⟩, none)
      ∧ (∀ x, x ∉ contAddrs t → h' x = st.heap x)
      ∧ realizes h' (substT t ps).1 = true
  | .tens a dt, fuel, pfx, ps, st, hreal, hrec, hwf, hh, hnd, hvis, hacc,
      hlen, hpt, hfr => by
    have ha : st.heap a = .tensor dt := by simpa [realizes] using hreal
    have hfl : dt.isFloat = false := by
      simpa [recursable, Bool.not_eq_true'] using hrec
    obtain ⟨hp, v, ac⟩ := st
    simp only at ha hacc ⊢
    subst hacc
    refine ⟨hp, ?_, fun x _ => rfl, ?_⟩
    · cases fuel <;>
        simp [traverseObj, traverseStep, OTree.addr, ha, Node.entries,
          traverseList, visitOrder, kidTens, hfl]
    · simp [substT, hfl, realizes, ha]
  | .odict a kids, fuel, pfx, ps, st, hreal, hrec, hwf, hh, hnd, hvis, hacc,
      hlen, hpt, hfr => by
    have ha : st.heap a = .dict (dictFields kids) := by
      simp [realizes] at hreal
      exact hreal.1
    have hk : realizesK st.heap kids = true := by
      simp [realizes] at hreal
      exact hreal.2
    have hent : (st.heap a).entries = some (kidEntries true 0 kids) := by
      rw [ha]
      exact mkNode_entries true kids
    have hwfk : wfK kids = true := by
      simp [wfT] at hwf
      exact hwf.2
    have hkeysnd : (dictKeys kids).Nodup := by
      refine strNodup_nodup _ ?_
      simp [wfT] at hwf
      exact hwf.1
    cases fuel with
    | zero =>
      have hnil : kids = OKids.nil := heightK_eq_zero kids (by
        simpa [height] using hh)
      subst hnil
      obtain ⟨hp, v, ac⟩ := st
      simp only at ha hent hacc ⊢
      subst hacc
      refine ⟨hp, ?_, fun x _ => rfl, ?_⟩
      · simp [traverseObj, traverseStep, OTree.addr, hent, kidEntries,
          traverseList, visitOrder, visitOrderK, kidTens, tensK]
      · simp [substT, substK, realizes, realizesK, ha, dictFields]
    | succ f =>
      obtain ⟨h', hrun, howner, hframe, hrealK⟩ := setK_run kids .nil f true a pfx ps st
        (by rw [ha]; rfl)
        hk hwfk (fun _ => hkeysnd)
        (by simpa [height] using hh)
        (by simpa [OTree.addr, visitOrder] using (List.nodup_cons.mp hnd).2)
        (fun x hx => hvis x (by simpa [visitOrder] using hx))
        (by simpa [OTree.addr, visitOrder] using (List.nodup_cons.mp hnd).1)
        hacc (by simpa [kidTens] using hlen) hpt
        (fun q hq => ⟨fun he => hfr q hq (by simp [OTree.addr, he]),
          fun hm => hfr q hq (by
            simp only [OTree.addr, visitOrder, List.mem_cons]
            exact Or.inr hm)⟩)
      refine ⟨h', ?_, ?_, ?_⟩
      · simp only [traverseObj, traverseStep, OTree.addr]
        rw [hent]
        show traverseList setAction (fun a p s => traverseObj setAction f a p s)
          a pfx (kidEntries true 0 kids) st = _
        rw [show kidEntries true 0 kids
            = kidEntries true (OKids.nil.size) kids from rfl, hrun]
        simp [visitOrder, kidTens]
      · intro x hx
        simp only [contAddrs, List.mem_cons, not_or] at hx
        exact hframe x hx.1 hx.2
      · simp only [substT, realizes]
        rw [howner]
        simp [mkNode, appendK, hrealK]
  | .oiter a kids, fuel, pfx, ps, st, hreal, hrec, hwf, hh, hnd, hvis, hacc,
      hlen, hpt, hfr => by
    have ha : st.heap a = .iter (kidAddrs kids) := by
      simp [realizes] at hreal
      exact hreal.1
    have hk : realizesK st.heap kids = true := by
      simp [realizes] at hreal
      exact hreal.2
    have hent : (st.heap a).entries = some (kidEntries false 0 kids) := by
      rw [ha]
      exact mkNode_entries false kids
    have hwfk : wfK kids = true := by
      simpa [wfT] using hwf
    cases fuel with
    | zero =>
      have hnil : kids = OKids.nil := heightK_eq_zero kids (by
        simpa [height] using hh)
      subst hnil
      obtain ⟨hp, v, ac⟩ := st
      simp only at ha hent hacc ⊢
      subst hacc
      refine ⟨hp, ?_, fun x _ => rfl, ?_⟩
      · simp [traverseObj, traverseStep, OTree.addr, hent, kidEntries,
          traverseList, visitOrder, visitOrderK, kidTens, tensK]
      · simp [substT, substK, realizes, realizesK, ha, kidAddrs]
    | succ f =>
      obtain ⟨h', hrun, howner, hframe, hrealK⟩ := setK_run kids .nil f false a pfx ps st
        (by rw [ha]; rfl)
        hk hwfk (fun hfalse => by simp at hfalse)
        (by simpa [height] using hh)
        (by simpa [OTree.addr, visitOrder] using (List.nodup_cons.mp hnd).2)
        (fun x hx => hvis x (by simpa [visitOrder] using hx))
        (by simpa [OTree.addr, visitOrder] using (List.nodup_cons.mp hnd).1)
        hacc (by simpa [kidTens] using hlen) hpt
        (fun q hq => ⟨fun he => hfr q hq (by simp [OTree.addr, he]),
          fun hm => hfr q hq (by
            simp only [OTree.addr, visitOrder, List.mem_cons]
            exact Or.inr hm)⟩)
      refine ⟨h', ?_, ?_, ?_⟩
      · simp only [traverseObj, traverseStep, OTree.addr]
        rw [hent]
        show traverseList setAction (fun a p s => traverseObj setAction f a p s)
          a pfx (kidEntries false 0 kids) st = _
        rw [show kidEntries false 0 kids
            = kidEntries false (OKids.nil.size) kids from rfl, hrun]
        simp [visitOrder, kidTens]
      · intro x hx
        simp only [contAddrs, List.mem_cons, not_or] at hx
        exact hframe x hx.1 hx.2
      · simp only [substT, realizes]
        rw [howner]
        simp [mkNode, appendK, hrealK]
  | .oatom a, fuel, pfx, ps, st, hreal, hrec, hwf, hh, hnd, hvis, hacc,
      hlen, hpt, hfr => by
    simp [recursable] at hrec
theorem setK_run : ∀ (ks done : OKids) (fuel : Nat) (isDict : Bool)
    (owner : Nat) (pfx : String) (ps : List (Nat × Dtype)) (st : TState (List Nat)),
    st.heap owner = mkNode isDict (appendK done ks) →
    realizesK st.heap ks = true →
    wfK ks = true →
    (isDict = true → (dictKeys (appendK done ks)).Nodup) →
    heightK ks ≤ fuel + 1 →
    (visitOrderK ks).Nodup →
    (∀ x ∈ visitOrderK ks, x ∉ st.visited) →
    owner ∉ visitOrderK ks →
    st.acc = ps.map Prod.fst →
    (tensK ks).length ≤ ps.length →
    (∀ q ∈ ps, st.heap q.1 = .tensor q.2 ∧ q.2.isFloat = true) →
    (∀ q ∈ ps, q.1 ≠ owner ∧ q.1 ∉ visitOrderK ks) →
    ∃ h', traverseList setAction (fun a p s => traverseObj setAction fuel a p s)
        owner pfx (kidEntries isDict done.size ks) st
      = (⟨h', st.visited ++ visitOrderK ks,
          (ps.drop (tensK ks).length).map Prod.fst⟩, none)
      ∧ h' owner = mkNode isDict (appendK done (substK ks ps).1)
      ∧ (∀ x, x ≠ owner → x ∉ contAddrsK ks → h' x = st.heap x)
      ∧ realizesK h' (substK ks ps).1 = true
  | .nil, done, fuel, isDict, owner, pfx, ps, st, howner, hreal, hwf, hkeys,
      hh, hnd, hvis, howv, hacc, hlen, hpt, hfr => by
    obtain ⟨hp, v, ac⟩ := st
    simp only at howner hacc
    subst hacc
    refine ⟨hp, ?_, ?_, fun x _ _ => rfl, by simp [substK, realizesK]⟩
    · simp [kidEntries, traverseList, visitOrderK, tensK]
    · rw [howner]
      simp [substK]
  | .cons k t r, done, fuel, isDict, owner, pfx, ps, st, howner, hreal, hwf,
      hkeys, hh, hnd, hvis, howv, hacc, hlen, hpt, hfr => by
    have hrt : realizes st.heap t = true := by
      simp [realizesK] at hreal
      exact hreal.1
    have hrr : realizesK st.heap r = true := by
      simp [realizesK] at hreal
      exact hreal.2
    have hwt : wfT t = true := by
      simp [wfK] at hwf
      exact hwf.1
    have hwr : wfK r = true := by
      simp [wfK] at hwf
      exact hwf.2
    have hnotin : t.addr ∉ st.visited :=
      hvis t.addr (by simp [visitOrderK])
    have hnd' : ((t.addr :: visitOrder t) ++ visitOrderK r).Nodup := by
      simpa only [visitOrderK] using hnd
    have hndP := List.nodup_append.mp hnd'
    have hndT : (t.addr :: visitOrder t).Nodup := hndP.1
    have hndR : (visitOrderK r).Nodup := hndP.2.1
    have hdisj : ∀ x ∈ t.addr :: visitOrder t, x ∉ visitOrderK r :=
      fun x hx => hndP.2.2 hx
    have hhr : heightK r ≤ fuel + 1 := by
      simp [heightK] at hh
      omega
    have hht : height t ≤ fuel := by
      simp [heightK] at hh
      omega
    have hvisR : ∀ x ∈ visitOrderK r, x ∉ st.visited := fun x hx => hvis x (by
      simp only [visitOrderK]
      exact List.mem_append.mpr (Or.inr hx))
    have hvisT : ∀ x ∈ t.addr :: visitOrder t, x ∉ st.visited := fun x hx => hvis x (by
      simp only [visitOrderK]
      exact List.mem_append.mpr (Or.inl hx))
    have howvT : owner ∉ t.addr :: visitOrder t := fun hm => howv (by
      simp only [visitOrderK]
      exact List.mem_append.mpr (Or.inl hm))
    have howvR : owner ∉ visitOrderK r := fun hm => howv (by
      simp only [visitOrderK]
      exact List.mem_append.mpr (Or.inr hm))
    have hfrT : ∀ q ∈ ps, q.1 ∉ t.addr :: visitOrder t := fun q hq hm =>
      (hfr q hq).2 (by
        simp only [visitOrderK]
        exact List.mem_append.mpr (Or.inl hm))
    have hfrR : ∀ q ∈ ps, q.1 ∉ visitOrderK r := fun q hq hm =>
      (hfr q hq).2 (by
        simp only [visitOrderK]
        exact List.mem_append.mpr (Or.inr hm))
    have hkid : kidEntries isDict done.size (.cons k t r)
        = (if isDict then SKey.attr k else SKey.idx done.size, t.addr)
          :: kidEntries isDict (done.size+1) r := rfl
    have hcontT : ∀ x ∈ contAddrs t, x ∈ t.addr :: visitOrder t := contAddrs_subset t
    have hcontR : ∀ x ∈ contAddrsK r, x ∈ visitOrderK r := contAddrsK_subset r
    by_cases hR : recursable t = true
    · -- the loop recurses into this child
      have hcrit : critFloatTensor (st.heap t.addr) = false := by
        cases t with
        | tens a dt =>
          have ha : st.heap a = .tensor dt := by simpa [realizes] using hrt
          have hnf : dt.isFloat = false := by
            simpa [recursable, Bool.not_eq_true'] using hR
          simp [OTree.addr, ha, critFloatTensor, hnf]
        | odict a2 kids2 =>
          have ha : st.heap a2 = .dict (dictFields kids2) := by
            simp [realizes] at hrt
            exact hrt.1
          simp [OTree.addr, ha, critFloatTensor]
        | oiter a2 kids2 =>
          have ha : st.heap a2 = .iter (kidAddrs kids2) := by
            simp [realizes] at hrt
            exact hrt.1
          simp [OTree.addr, ha, critFloatTensor]
        | oatom a => simp [recursable] at hR
      have hsome : ((st.heap t.addr).entries).isSome = true := by
        cases t with
        | tens a dt =>
          have ha : st.heap a = .tensor dt := by simpa [realizes] using hrt
          simp [OTree.addr, ha, Node.entries]
        | odict a2 kids2 =>
          have ha : st.heap a2 = .dict (dictFields kids2) := by
            simp [realizes] at hrt
            exact hrt.1
          simp [OTree.addr, ha, Node.entries]
        | oiter a2 kids2 =>
          have ha : st.heap a2 = .iter (kidAddrs kids2) := by
            simp [realizes] at hrt
            exact hrt.1
          simp [OTree.addr, ha, Node.entries]
        | oatom a => simp [recursable] at hR
      obtain ⟨h2, hrun2, hframe2, hreal2⟩ := setT_run t fuel
        (fmtName pfx (if isDict then SKey.attr k else SKey.idx done.size)) ps
        ⟨st.heap, st.visited ++ [t.addr], st.acc⟩ hrt hR hwt hht hndT
        (by
          intro x hx hmem
          rcases List.mem_append.mp hmem with hm | hm
          · exact hvisT x (List.mem_cons_of_mem _ hx) hm
          · simp at hm
            subst hm
            exact (List.nodup_cons.mp hndT).1 hx)
        hacc
        (by
          simp only [tensK, List.length_append] at hlen
          omega)
        hpt hfrT
      have haddr : (substT t ps).1.addr = t.addr := recursable_addr t ps hR
      have howner2 : h2 owner
          = mkNode isDict (appendK (appendK done (.cons k (substT t ps).1 .nil)) r) := by
        rw [hframe2 owner (fun hm => howvT (hcontT owner hm))]
        show st.heap owner = _
        rw [howner, mkNode_mid_addr isDict done r k t (substT t ps).1 haddr]
      have hsize' : (appendK done (.cons k (substT t ps).1 .nil)).size
          = done.size + 1 := by
        rw [appendK_size]
        simp [OKids.size]
      have hrr2 : realizesK h2 r = true := by
        rw [realizesK_congr r h2 st.heap
          (fun x hx => hframe2 x (fun hm => hdisj x (hcontT x hm) hx))]
        exact hrr
      have hpt2 : ∀ q ∈ (substT t ps).2,
          h2 q.1 = .tensor q.2 ∧ q.2.isFloat = true := by
        intro q hq
        have hqps : q ∈ ps := by
          rw [substT_snd t ps] at hq
          exact List.drop_subset _ ps hq
        rw [hframe2 q.1 (fun hm => hfrT q hqps (hcontT _ hm))]
        exact hpt q hqps
      have hkeys' : isDict = true →
          (dictKeys (appendK (appendK done (.cons k (substT t ps).1 .nil)) r)).Nodup := by
        intro hd
        have hin := hkeys hd
        rw [dictKeys_appendK] at hin
        rw [dictKeys_appendK, dictKeys_appendK]
        simpa [dictKeys] using hin
      obtain ⟨h3, hrun3, howner3, hframe3, hreal3⟩ := setK_run r
        (appendK done (.cons k (substT t ps).1 .nil)) fuel isDict owner pfx
        (substT t ps).2
        ⟨h2, (st.visited ++ [t.addr]) ++ visitOrder t,
         (ps.drop (kidTens t).length).map Prod.fst⟩
        howner2 hrr2 hwr hkeys' hhr hndR
        (by
          intro x hx hmem
          rcases List.mem_append.mp hmem with hm | hm
          · rcases List.mem_append.mp hm with hm2 | hm2
            · exact hvisR x hx hm2
            · simp at hm2
              subst hm2
              exact hdisj t.addr (List.mem_cons_self _ _) hx
          · exact hdisj x (List.mem_cons_of_mem _ hm) hx)
        howvR
        (by
          show (ps.drop (kidTens t).length).map Prod.fst = _
          rw [substT_snd t ps])
        (by
          rw [substT_snd t ps]
          simp only [tensK, List.length_append] at hlen
          simp
          omega)
        hpt2
        (by
          intro q hq
          have hqps : q ∈ ps := by
            rw [substT_snd t ps] at hq
            exact List.drop_subset _ ps hq
          exact ⟨(hfr q hqps).1, hfrR q hqps⟩)
      refine ⟨h3, ?_, ?_, ?_, ?_⟩
      · rw [hkid]
        simp only [traverseList, List.elem_eq_mem, hnotin, decide_False,
          Bool.false_eq_true, if_false, hcrit, hsome, if_true]
        simp only at hrun2
        rw [hrun2]
        show traverseList setAction (fun a p s => traverseObj setAction fuel a p s)
          owner pfx (kidEntries isDict (done.size+1) r) _ = _
        rw [show done.size + 1 = (appendK done (.cons k (substT t ps).1 .nil)).size
          from hsize'.symm]
        rw [hrun3]
        rw [substT_snd t ps]
        simp [visitOrderK, tensK, List.append_assoc, List.drop_drop, Nat.add_comm]
      · rw [howner3]
        simp only [substK]
        rw [← appendK_cons]
      · intro x hxo hxc
        simp only [contAddrsK, List.mem_append, not_or] at hxc
        rw [hframe3 x hxo hxc.2]
        exact hframe2 x hxc.1
      · simp only [substK, realizesK]
        have hagree : ∀ x ∈ (substT t ps).1.addr :: visitOrder (substT t ps).1,
            h3 x = h2 x := by
          intro x hx
          rcases substT_visit_mem t ps x hx with hm | hm
          · exact hframe3 x (fun he => howvT (he ▸ hm))
              (fun hc => hdisj x hm (hcontR x hc))
          · rcases List.mem_map.mp (mem_map_fst_take hm) with ⟨q, hq, hqe⟩
            exact hqe ▸ hframe3 q.1 (fun he => (hfr q hq).1 he)
              (fun hc => hfrR q hq (hcontR _ hc))
        have ht3 : realizes h3 (substT t ps).1 = true := by
          rw [realizes_congr (substT t ps).1 h3 h2 hagree]
          exact hreal2
        simp [ht3, hreal3]
    · -- a float tensor child (written through the action) or an atom (skipped)
      cases t with
      | tens a dt =>
        have ha : st.heap a = .tensor dt := by simpa [realizes] using hrt
        have hfl : dt.isFloat = true := by
          simpa [recursable] using hR
        have hcrit : critFloatTensor (st.heap a) = true := by
          simp [ha, critFloatTensor, hfl]
        cases ps with
        | nil =>
          simp [tensK, kidTens, hfl] at hlen
        | cons q qs =>
          have hw : (fun x => if x = owner
                then setSlot (st.heap owner)
                  (if isDict then SKey.attr k else SKey.idx done.size) q.1
                else st.heap x) owner
              = mkNode isDict (appendK (appendK done (.cons k (.tens q.1 q.2) .nil)) r) := by
            simp only [if_pos rfl]
            rw [howner, mkNode_snoc_fields]
            cases isDict with
            | true =>
              show setSlot (mkNode true (appendK done (.cons k (.tens a dt) r)))
                  (SKey.attr k) q.1
                = Node.dict (dictFields done ++ (k, q.1) :: dictFields r)
              exact setSlot_dict_mid done r k (.tens a dt) q.1 (hkeys rfl)
            | false =>
              show setSlot (mkNode false (appendK done (.cons k (.tens a dt) r)))
                  (SKey.idx done.size) q.1
                = Node.iter (kidAddrs done ++ q.1 :: kidAddrs r)
              exact setSlot_iter_mid done r k (.tens a dt) q.1
          have hfr1 : ∀ p ∈ qs, p.1 ≠ owner := fun p hp =>
            (hfr p (by simp [hp])).1
          have hrr1 : realizesK (fun x => if x = owner
                then setSlot (st.heap owner)
                  (if isDict then SKey.attr k else SKey.idx done.size) q.1
                else st.heap x) r = true := by
            rw [realizesK_congr r _ st.heap (fun x hx => by
              have hxo : x ≠ owner := fun he => howvR (he ▸ hx)
              simp [hxo])]
            exact hrr
          have hpt1 : ∀ p ∈ qs, (fun x => if x = owner
                then setSlot (st.heap owner)
                  (if isDict then SKey.attr k else SKey.idx done.size) q.1
                else st.heap x) p.1 = Node.tensor p.2 ∧ p.2.isFloat = true := by
            intro p hp
            have hpo : p.1 ≠ owner := hfr1 p hp
            simp only [if_neg hpo]
            exact hpt p (by simp [hp])
          have hkeys1 : isDict = true →
              (dictKeys (appendK (appendK done (.cons k (.tens q.1 q.2) .nil)) r)).Nodup := by
            intro hd
            have hin := hkeys hd
            rw [dictKeys_appendK] at hin
            rw [dictKeys_appendK, dictKeys_appendK]
            simpa [dictKeys] using hin
          have hsize' : (appendK done (.cons k (.tens q.1 q.2) .nil)).size
              = done.size + 1 := by
            rw [appendK_size]
            simp [OKids.size]
          obtain ⟨h3, hrun3, howner3, hframe3, hreal3⟩ := setK_run r
            (appendK done (.cons k (.tens q.1 q.2) .nil)) fuel isDict owner pfx qs
            ⟨(fun x => if x = owner
                then setSlot (st.heap owner)
                  (if isDict then SKey.attr k else SKey.idx done.size) q.1
                else st.heap x),
             st.visited ++ [a], qs.map Prod.fst⟩
            hw hrr1 hwr hkeys1 hhr hndR
            (by
              intro x hx hmem
              rcases List.mem_append.mp hmem with hm | hm
              · exact hvisR x hx hm
              · simp at hm
                subst hm
                exact hdisj _ (List.mem_cons_self _ _) hx)
            howvR rfl
            (by
              simp only [tensK, kidTens, hfl, eq_self_iff_true, if_true,
                List.length_append, List.length_cons, List.length_nil] at hlen
              omega)
            hpt1
            (fun p hp => ⟨hfr1 p hp, fun hm => hfrR p (by simp [hp]) hm⟩)
          refine ⟨h3, ?_, ?_, ?_, ?_⟩
          · rw [hkid]
            simp only [OTree.addr] at hnotin
            simp only [traverseList, List.elem_eq_mem, hnotin, decide_False,
              Bool.false_eq_true, if_false, OTree.addr, hcrit, if_true,
              setAction, hacc, List.map_cons]
            show traverseList setAction
              (fun a p s => traverseObj setAction fuel a p s)
              owner pfx (kidEntries isDict (done.size+1) r) _ = _
            rw [show done.size + 1 = (appendK done (.cons k (.tens q.1 q.2) .nil)).size
              from hsize'.symm]
            rw [hrun3]
            simp [visitOrderK, visitOrder, tensK, kidTens, OTree.addr, hfl,
              List.append_assoc]
          · rw [howner3]
            simp only [substK, substT, hfl, eq_self_iff_true, if_true]
            rw [← appendK_cons]
          · intro x hxo hxc
            simp only [contAddrsK, contAddrs, List.mem_append, not_or,
              List.not_mem_nil] at hxc
            rw [hframe3 x hxo hxc.2]
            simp [hxo]
          · simp only [substK, substT, hfl, eq_self_iff_true, if_true, realizesK]
            have hq3 : h3 q.1 = Node.tensor q.2 := by
              rw [hframe3 q.1 (hfr q (by simp)).1
                (fun hc => hfrR q (by simp) (hcontR _ hc))]
              have hqo : q.1 ≠ owner := (hfr q (by simp)).1
              simp only [if_neg hqo]
              exact (hpt q (by simp)).1
            simp [realizes, hq3, hreal3, (hpt q (by simp)).2]
      | odict a2 kids2 => simp [recursable] at hR
      | oiter a2 kids2 => simp [recursable] at hR
      | oatom a =>
        have ha : st.heap a = .atom := by simpa [realizes] using hrt
        have hcrit : critFloatTensor (st.heap a) = false := by
          simp [ha, critFloatTensor]
        have hnone : ((st.heap a).entries).isSome = false := by
          simp [ha, Node.entries]
        have howner1 : st.heap owner
            = mkNode isDict (appendK (appendK done (.cons k (.oatom a) .nil)) r) := by
          rw [howner, mkNode_mid_addr isDict done r k (.oatom a) (.oatom a) rfl]
        have hkeys1 : isDict = true →
            (dictKeys (appendK (appendK done (.cons k (.oatom a) .nil)) r)).Nodup := by
          intro hd
          have hin := hkeys hd
          rw [dictKeys_appendK] at hin
          rw [dictKeys_appendK, dictKeys_appendK]
          simpa [dictKeys] using hin
        have hsize' : (appendK done (.cons k (.oatom a) .nil)).size
            = done.size + 1 := by
          rw [appendK_size]
          simp [OKids.size]
        obtain ⟨h3, hrun3, howner3, hframe3, hreal3⟩ := setK_run r
          (appendK done (.cons k (.oatom a) .nil)) fuel isDict owner pfx ps
          ⟨st.heap, st.visited ++ [a], st.acc⟩
          howner1 hrr hwr hkeys1 hhr hndR
          (by
            intro x hx hmem
            rcases List.mem_append.mp hmem with hm | hm
            · exact hvisR x hx hm
            · simp at hm
              subst hm
              exact hdisj _ (List.mem_cons_self _ _) hx)
          howvR hacc
          (by
            simpa [tensK, kidTens] using hlen)
          hpt
          (fun p hp => ⟨(hfr p hp).1, fun hm => hfrR p hp hm⟩)
        refine ⟨h3, ?_, ?_, ?_, ?_⟩
        · rw [hkid]
          simp only [OTree.addr] at hnotin
          simp only [traverseList, List.elem_eq_mem, hnotin, decide_False,
            Bool.false_eq_true, if_false, OTree.addr, hcrit, hnone]
          show traverseList setAction
            (fun a p s => traverseObj setAction fuel a p s)
            owner pfx (kidEntries isDict (done.size+1) r) _ = _
          rw [show done.size + 1 = (appendK done (.cons k (.oatom a) .nil)).size
            from hsize'.symm]
          rw [hrun3]
          simp [visitOrderK, visitOrder, tensK, kidTens, OTree.addr,
            List.append_assoc]
        · rw [howner3]
          simp only [substK, substT]
          rw [← appendK_cons]
        · intro x hxo hxc
          simp only [contAddrsK, contAddrs, List.mem_append, not_or,
            List.not_mem_nil] at hxc
          exact hframe3 x hxo hxc.2
        · simp only [substK, substT, realizesK]
          have ha3 : h3 a = Node.atom := by
            rw [hframe3 a (fun he => howv (he ▸ (by
                simp [visitOrderK, visitOrder, OTree.addr] : a ∈ visitOrderK (OKids.cons k (OTree.oatom a) r))))
              (fun hc => hdisj a (by simp [OTree.addr, visitOrder]) (hcontR _ hc))]
            exact ha
          simp [realizes, ha3, hreal3]
end

/-- C5 (amended): for an alias-free, well-formed acyclic object graph
(container root; pairwise-distinct node addresses; distinct dictionary
keys) within the depth bound, whose traversal matches exactly `N = ps.length`
float-tensor slots, installing `N` fresh pairwise-distinct float tensors
via `_set_tensors` consumes the whole list without error and a subsequent
`_get_tensors` returns exactly the installed tensors, in the supplied
order. -/
theorem claim_C5_amended (t : OTree) (h : Heap) (ps : List (Nat × Dtype))
    (hcont : isContainer t = true)
    (hreal : realizes h t = true) (hwf : wfT t = true)
    (hh : height t ≤ 20)
    (hnd : (t.addr :: visitOrder t).Nodup)
    (hpnd : (ps.map Prod.fst).Nodup)
    (hlen : (kidTens t).length = ps.length)
    (hpt : ∀ q ∈ ps, h q.1 = Node.tensor q.2 ∧ q.2.isFloat = true)
    (hfr : ∀ q ∈ ps, q.1 ∉ t.addr :: visitOrder t) :
    ∃ h' nms nms',
      getTensors h t.addr 20 = ((kidTens t, nms), none) ∧
      setTensors h t.addr (ps.map Prod.fst) 20 = ((h', []), none) ∧
      getTensors h' t.addr 20 = ((ps.map Prod.fst, nms'), none) := by
  have hrec : recursable t = true := by
    cases t <;> simp [isContainer, recursable] at hcont ⊢
  obtain ⟨nms, hget⟩ := getT_run t 20 "self" ⟨h, [], ([], [])⟩ hreal hrec hh hnd
    (fun x _ hx => (List.not_mem_nil x) hx)
  obtain ⟨h', hset, hframe, hreal'⟩ := setT_run t 20 "self" ps
    ⟨h, [], ps.map Prod.fst⟩ hreal hrec hwf hh hnd
    (fun x _ hx => (List.not_mem_nil x) hx) rfl (le_of_eq hlen) hpt hfr
  have hrec' : recursable (substT t ps).1 = true := by
    cases t with
    | tens a dt => simp [isContainer] at hcont
    | odict a kids => simp [substT, recursable]
    | oiter a kids => simp [substT, recursable]
    | oatom a => simp [isContainer] at hcont
  have haddr : (substT t ps).1.addr = t.addr := recursable_addr t ps hrec
  have hnd2 : ((substT t ps).1.addr :: visitOrder (substT t ps).1).Nodup :=
    substT_visit_nodup t ps hnd hpnd hfr
  obtain ⟨nms', hget2⟩ := getT_run (substT t ps).1 20 "self" ⟨h', [], ([], [])⟩
    hreal' hrec' (by rw [substT_height]; exact hh) hnd2
    (fun x _ hx => (List.not_mem_nil x) hx)
  refine ⟨h', nms, nms', ?_, ?_, ?_⟩
  · simp only [getTensors]
    rw [hget]
    simp
  · simp only [setTensors]
    rw [hset]
    simp [hlen]
  · simp only [getTensors]
    rw [← haddr, hget2]
    rw [kidTens_subst t ps (le_of_eq hlen) (fun q hq => (hpt q hq).2)]
    rw [hlen, List.take_length]
    simp

/-- Witness for the amended C5 law on `roundHeap`: the two-slot root
matches `N = 2`; installing the fresh tensors `3` and `4` and
re-collecting returns `[3, 4]`. -/
theorem claim_C5_amended_witness :
    ∃ h' nms nms',
      getTensors roundHeap roundTree.addr 20 = ((kidTens roundTree, nms), none) ∧
      setTensors roundHeap roundTree.addr
          ([(3, Dtype.float32), (4, Dtype.float32)].map Prod.fst) 20
        = ((h', []), none) ∧
      getTensors h' roundTree.addr 20
        = (([(3, Dtype.float32), (4, Dtype.float32)].map Prod.fst, nms'), none) :=
  claim_C5_amended roundTree roundHeap [(3, .float32), (4, .float32)]
    (by decide) (by decide) (by decide) (by decide) (by decide) (by decide)
    (by decide) (by decide) (by decide)

end EditableModule
